import Mathlib

/-
Verification of the Sia consensus / wallet specification claims.

Part I embeds the wallet transaction builder (`FundSiacoins`, `FundSiafunds`)
directly from the repository source.  Part II models the consensus-set engine
(block acceptance, diff engine, fork resolution) from the specification, since
the repository snapshot contains only its tests; the models follow the spec's
description of the algorithms and the behavior pinned down by the tests.
-/

set_option maxHeartbeats 1000000

namespace SiaWallet

/-- The uint64 modulus used by Go's `types.BlockHeight` arithmetic. -/
def U64 : Nat := 18446744073709551616

/-- A wallet-visible output, as consulted by the funding loops of the
transaction builder: its id, value, the height at which the wallet last spent
it (`spentOutputs` map; 0 when never spent, the Go map default), and the
timelock of its unlock conditions. -/
structure WOutput where
  oid : Nat
  value : Nat
  spendHeight : Nat
  timelock : Nat
deriving Repr, DecidableEq

/-- Errors returned by the funding functions of the transaction builder. -/
inductive FundErr where
  | potentialDoubleSpend
  | lowBalance
deriving Repr, DecidableEq

/-- Go's `ConsensusSetHeight() - RespendTimeout` on uint64 values: the
wrapping (possibly underflowing) subtraction, before the clamp is applied. -/
def allowedHeightRaw (h rt : Nat) : Nat :=
  (h % U64 + (U64 - rt % U64)) % U64

/-- The allowed respend height actually used by `FundSiacoins` and
`FundSiafunds`: the code first computes the raw uint64 subtraction and then
overwrites it with 0 whenever `ConsensusSetHeight() < RespendTimeout`. -/
def allowedHeight (h rt : Nat) : Nat :=
  if h < rt then 0 else allowedHeightRaw h rt

/-- An output counts as recently spent when its recorded spend height exceeds
the allowed respend height (`spendHeight > allowedHeight` in the source). -/
def recentlySpent (o : WOutput) (h rt : Nat) : Bool :=
  decide (allowedHeight h rt < o.spendHeight)

/-- Accumulator of the funding loop: `fund` is the value gathered into inputs,
`potentialFund` additionally counts outputs skipped as recently spent, and
`spent` lists the ids of the outputs gathered. -/
structure FundState where
  fund : Nat
  potentialFund : Nat
  spent : List Nat
deriving Repr, DecidableEq

/-- The initial accumulator of a funding loop. -/
def initFund : FundState := ⟨0, 0, []⟩

/-- The output-collection loop of `FundSiacoins`: skip outputs recently spent
(counting them into `potentialFund`), skip timelocked outputs, otherwise gather
the output and stop as soon as `fund` covers `amount`. -/
def fundLoop (h rt amount : Nat) : List WOutput → FundState → FundState
  | [], st => st
  | o :: t, st =>
    if allowedHeight h rt < o.spendHeight then
      fundLoop h rt amount t { st with potentialFund := st.potentialFund + o.value }
    else if h < o.timelock then
      fundLoop h rt amount t st
    else
      let st' : FundState :=
        ⟨st.fund + o.value, st.potentialFund + o.value, st.spent ++ [o.oid]⟩
      if amount ≤ st'.fund then st' else fundLoop h rt amount t st'

/-- The error-selection logic of `FundSiacoins` (wallet/transactionbuilder):
run the collection loop over the wallet's (sorted, confirmed plus unconfirmed)
siacoin outputs, then return `ErrPotentialDoubleSpend` when the potential fund
covers the amount but the gathered fund does not, `ErrLowBalance` when the
gathered fund does not cover the amount, and otherwise the gathered ids. -/
def FundSiacoins (h rt amount : Nat) (outs : List WOutput) : Except FundErr (List Nat) :=
  let st := fundLoop h rt amount outs initFund
  if amount ≤ st.potentialFund ∧ st.fund < amount then .error .potentialDoubleSpend
  else if st.fund < amount then .error .lowBalance
  else .ok st.spent

/-- The output-collection loop of `FundSiafunds`, which duplicates the siacoin
loop over the wallet's siafund outputs. -/
def fundLoopSF (h rt amount : Nat) : List WOutput → FundState → FundState
  | [], st => st
  | o :: t, st =>
    if allowedHeight h rt < o.spendHeight then
      fundLoopSF h rt amount t { st with potentialFund := st.potentialFund + o.value }
    else if h < o.timelock then
      fundLoopSF h rt amount t st
    else
      let st' : FundState :=
        ⟨st.fund + o.value, st.potentialFund + o.value, st.spent ++ [o.oid]⟩
      if amount ≤ st'.fund then st' else fundLoopSF h rt amount t st'

/-- The error-selection logic of `FundSiafunds`, identical in structure to
`FundSiacoins`. -/
def FundSiafunds (h rt amount : Nat) (outs : List WOutput) : Except FundErr (List Nat) :=
  let st := fundLoopSF h rt amount outs initFund
  if amount ≤ st.potentialFund ∧ st.fund < amount then .error .potentialDoubleSpend
  else if st.fund < amount then .error .lowBalance
  else .ok st.spent

/-- Through the funding loop the gathered fund never exceeds the potential
fund: every value added to `fund` is also added to `potentialFund`. -/
theorem fundLoop_fund_le_potential (h rt amount : Nat) :
    ∀ (outs : List WOutput) (st : FundState), st.fund ≤ st.potentialFund →
      (fundLoop h rt amount outs st).fund ≤ (fundLoop h rt amount outs st).potentialFund := by
  intro outs
  induction outs with
  | nil => intro st hst; simpa [fundLoop] using hst
  | cons o t ih =>
    intro st hst
    simp only [fundLoop]
    split
    · exact ih _ (by simp; omega)
    · split
      · exact ih _ hst
      · split
        · simp; omega
        · exact ih _ (by simp; omega)

/-- Same monotonicity for the siafund copy of the loop. -/
theorem fundLoopSF_fund_le_potential (h rt amount : Nat) :
    ∀ (outs : List WOutput) (st : FundState), st.fund ≤ st.potentialFund →
      (fundLoopSF h rt amount outs st).fund ≤ (fundLoopSF h rt amount outs st).potentialFund := by
  intro outs
  induction outs with
  | nil => intro st hst; simpa [fundLoopSF] using hst
  | cons o t ih =>
    intro st hst
    simp only [fundLoopSF]
    split
    · exact ih _ (by simp; omega)
    · split
      · exact ih _ hst
      · split
        · simp; omega
        · exact ih _ (by simp; omega)

/-- C9: `FundSiacoins` and `FundSiafunds` distinguish the two failure cases
with a fixed precedence: when the potential fund (outputs including those
locked by recent unconfirmed spends) covers the amount but the gathered
spendable fund does not, they return `ErrPotentialDoubleSpend`; when even the
potential fund is below the amount they return `ErrLowBalance`; the
`ErrPotentialDoubleSpend` check is performed first, so it wins whenever both
underfunding conditions hold. -/
theorem fund_error_precedence (h rt amount : Nat) (scOuts sfOuts : List WOutput) :
    ((fundLoop h rt amount scOuts initFund).fund < amount →
      amount ≤ (fundLoop h rt amount scOuts initFund).potentialFund →
      FundSiacoins h rt amount scOuts = .error .potentialDoubleSpend)
  ∧ ((fundLoop h rt amount scOuts initFund).potentialFund < amount →
      FundSiacoins h rt amount scOuts = .error .lowBalance)
  ∧ ((fundLoopSF h rt amount sfOuts initFund).fund < amount →
      amount ≤ (fundLoopSF h rt amount sfOuts initFund).potentialFund →
      FundSiafunds h rt amount sfOuts = .error .potentialDoubleSpend)
  ∧ ((fundLoopSF h rt amount sfOuts initFund).potentialFund < amount →
      FundSiafunds h rt amount sfOuts = .error .lowBalance) := by
  refine ⟨fun hf hp => ?_, fun hp => ?_, fun hf hp => ?_, fun hp => ?_⟩
  · simp [FundSiacoins, hf, hp]
  · have hle := fundLoop_fund_le_potential h rt amount scOuts initFund (by simp [initFund])
    have hf : (fundLoop h rt amount scOuts initFund).fund < amount := by omega
    simp [FundSiacoins, hf]
    omega
  · simp [FundSiafunds, hf, hp]
  · have hle := fundLoopSF_fund_le_potential h rt amount sfOuts initFund (by simp [initFund])
    have hf : (fundLoopSF h rt amount sfOuts initFund).fund < amount := by omega
    simp [FundSiafunds, hf]
    omega

/-- Witness for C9: concrete runs hitting each error, with the double-spend
error taking precedence when both underfunding conditions hold. -/
theorem fund_error_precedence_witness :
    FundSiacoins 100 40 50 [⟨1, 60, 95, 0⟩] = .error .potentialDoubleSpend
  ∧ FundSiacoins 100 40 50 [⟨1, 10, 0, 0⟩] = .error .lowBalance
  ∧ FundSiafunds 100 40 50 [⟨1, 60, 95, 0⟩] = .error .potentialDoubleSpend
  ∧ FundSiafunds 100 40 50 [⟨1, 10, 0, 0⟩] = .error .lowBalance := by
  refine ⟨?_, ?_, ?_, ?_⟩
  · exact (fund_error_precedence 100 40 50 [⟨1, 60, 95, 0⟩] []).1 (by decide) (by decide)
  · exact (fund_error_precedence 100 40 50 [⟨1, 10, 0, 0⟩] []).2.1 (by decide)
  · exact (fund_error_precedence 100 40 50 [] [⟨1, 60, 95, 0⟩]).2.2.1 (by decide) (by decide)
  · exact (fund_error_precedence 100 40 50 [] [⟨1, 10, 0, 0⟩]).2.2.2 (by decide)

/-- C10: in the funding loops the allowed respend height is clamped to 0
whenever the consensus-set height is below `RespendTimeout`; consequently the
uint64 subtraction never underflows — the computed value always equals the
mathematical truncated difference `h - rt` — and at low chain heights an
output is treated as recently spent exactly when it really was spent at some
positive height, which is necessarily within the last `RespendTimeout`
blocks. -/
theorem allowedHeight_no_underflow (h rt : Nat) (o : WOutput)
    (hh : h < U64) (hrt : rt < U64) :
    allowedHeight h rt = h - rt
  ∧ (h < rt → allowedHeight h rt = 0)
  ∧ (h < rt → (recentlySpent o h rt = true ↔ 0 < o.spendHeight))
  ∧ (h < rt → 0 < o.spendHeight → h < o.spendHeight + rt) := by
  have hmain : allowedHeight h rt = h - rt := by
    unfold allowedHeight allowedHeightRaw
    split
    · omega
    · have h1 : h % U64 = h := Nat.mod_eq_of_lt hh
      have h2 : rt % U64 = rt := Nat.mod_eq_of_lt hrt
      rw [h1, h2]
      have h3 : h + (U64 - rt) = (h - rt) + U64 := by omega
      rw [h3, Nat.add_mod_right]
      exact Nat.mod_eq_of_lt (by omega)
  refine ⟨hmain, fun hlt => ?_, fun hlt => ?_, fun hlt hs => by omega⟩
  · rw [hmain]; omega
  · rw [recentlySpent, hmain]
    constructor
    · intro hb
      have := of_decide_eq_true hb
      omega
    · intro hs
      exact decide_eq_true (by omega)

/-- Witness for C10 at a concrete low height: height 5, timeout 40. -/
theorem allowedHeight_no_underflow_witness :
    allowedHeight 5 40 = 5 - 40
  ∧ (5 < 40 → allowedHeight 5 40 = 0)
  ∧ (5 < 40 → (recentlySpent ⟨1, 10, 3, 0⟩ 5 40 = true ↔ 0 < (3 : Nat)))
  ∧ (5 < 40 → 0 < (3 : Nat) → 5 < 3 + 40) :=
  allowedHeight_no_underflow 5 40 ⟨1, 10, 3, 0⟩ (by decide) (by decide)

end SiaWallet

namespace SiaConsensus

/-! ### Sorted association lists

The persistent stores of the consensus set (live siacoin outputs, live file
contracts) are durable keyed maps.  They are modelled as association lists
with strictly increasing keys, the canonical representation that makes
applying a diff and then reverting it restore the store exactly. -/

/-- Lookup in an association list keyed by `Nat`. -/
def lookupS {β : Type} (k : Nat) : List (Nat × β) → Option β
  | [] => none
  | (k', v) :: t => if k = k' then some v else lookupS k t

/-- Ordered insertion into an association list keyed by `Nat`. -/
def insertS {β : Type} (k : Nat) (v : β) : List (Nat × β) → List (Nat × β)
  | [] => [(k, v)]
  | (k', v') :: t =>
    if k < k' then (k, v) :: (k', v') :: t
    else if k = k' then (k, v) :: t
    else (k', v') :: insertS k v t

/-- Removal of a key from an association list. -/
def removeS {β : Type} (k : Nat) : List (Nat × β) → List (Nat × β)
  | [] => []
  | (k', v') :: t => if k = k' then t else (k', v') :: removeS k t

/-- The keys of an association list. -/
def keysS {β : Type} (l : List (Nat × β)) : List Nat := l.map Prod.fst

/-- Strictly increasing keys. -/
def SortedKeys {β : Type} (l : List (Nat × β)) : Prop :=
  l.Pairwise (fun a b => a.1 < b.1)

theorem keysS_nil {β : Type} : keysS ([] : List (Nat × β)) = [] := rfl

theorem keysS_cons {β : Type} (p : Nat × β) (l : List (Nat × β)) :
    keysS (p :: l) = p.1 :: keysS l := rfl

theorem mem_keysS {β : Type} {k : Nat} {l : List (Nat × β)} :
    k ∈ keysS l ↔ ∃ v, (k, v) ∈ l := by
  induction l with
  | nil => simp [keysS]
  | cons p t ih =>
    obtain ⟨k', v'⟩ := p
    simp only [keysS_cons, List.mem_cons, ih]
    constructor
    · rintro (rfl | ⟨v, hv⟩)
      · exact ⟨v', Or.inl rfl⟩
      · exact ⟨v, Or.inr hv⟩
    · rintro ⟨v, (h | h)⟩
      · exact Or.inl (congrArg Prod.fst h)
      · exact Or.inr ⟨v, h⟩

theorem lookupS_mem {β : Type} {k : Nat} {v : β} {l : List (Nat × β)}
    (h : lookupS k l = some v) : (k, v) ∈ l := by
  induction l with
  | nil => simp [lookupS] at h
  | cons p t ih =>
    obtain ⟨k', v'⟩ := p
    by_cases hk : k = k'
    · subst hk
      have hv : v' = v := by simpa [lookupS] using h
      subst hv
      exact List.mem_cons_self _ _
    · simp only [lookupS, if_neg hk] at h
      exact List.mem_cons_of_mem _ (ih h)

theorem lookupS_eq_none {β : Type} {k : Nat} {l : List (Nat × β)} :
    lookupS k l = none ↔ k ∉ keysS l := by
  induction l with
  | nil => simp [lookupS, keysS]
  | cons p t ih =>
    obtain ⟨k', v'⟩ := p
    by_cases hk : k = k'
    · subst hk; simp [lookupS, keysS_cons]
    · simp only [lookupS, if_neg hk, keysS_cons, List.mem_cons, ih]
      tauto

theorem lookupS_isSome_of_mem {β : Type} {k : Nat} {v : β} {l : List (Nat × β)}
    (h : (k, v) ∈ l) : ∃ w, lookupS k l = some w := by
  induction l with
  | nil => simp at h
  | cons p t ih =>
    obtain ⟨k', v'⟩ := p
    by_cases hk : k = k'
    · subst hk; exact ⟨v', by simp [lookupS]⟩
    · rcases List.mem_cons.1 h with h' | h'
      · cases h'; exact absurd rfl hk
      · obtain ⟨w, hw⟩ := ih h'
        exact ⟨w, by simp [lookupS, hk, hw]⟩

theorem sortedKeys_nodup {β : Type} {l : List (Nat × β)} (h : SortedKeys l) :
    (keysS l).Nodup := by
  induction l with
  | nil => simp [keysS]
  | cons p t ih =>
    rcases List.pairwise_cons.1 h with ⟨hp, ht⟩
    simp only [keysS_cons, List.nodup_cons]
    refine ⟨fun hmem => ?_, ih ht⟩
    obtain ⟨v, hv⟩ := mem_keysS.1 hmem
    exact absurd (hp _ hv) (lt_irrefl _)

theorem lookupS_of_mem {β : Type} {k : Nat} {v : β} {l : List (Nat × β)}
    (hs : SortedKeys l) (h : (k, v) ∈ l) : lookupS k l = some v := by
  induction l with
  | nil => simp at h
  | cons p t ih =>
    obtain ⟨k', v'⟩ := p
    rcases List.pairwise_cons.1 hs with ⟨hp, ht⟩
    rcases List.mem_cons.1 h with h' | h'
    · cases h'
      simp [lookupS]
    · have hk : k ≠ k' := by
        intro hkk
        subst hkk
        exact absurd (hp _ h') (lt_irrefl _)
      simp [lookupS, hk, ih ht h']

theorem mem_keysS_insertS {β : Type} {a k : Nat} {v : β} {l : List (Nat × β)} :
    a ∈ keysS (insertS k v l) ↔ a = k ∨ a ∈ keysS l := by
  induction l with
  | nil => simp [insertS, keysS]
  | cons p t ih =>
    obtain ⟨k', v'⟩ := p
    simp only [insertS]
    split_ifs with h1 h2
    · simp only [keysS_cons, List.mem_cons] <;> tauto
    · subst h2
      simp only [keysS_cons, List.mem_cons] <;> tauto
    · simp only [keysS_cons, List.mem_cons, ih] <;> tauto

theorem keysS_removeS_subset {β : Type} {a k : Nat} {l : List (Nat × β)}
    (h : a ∈ keysS (removeS k l)) : a ∈ keysS l := by
  induction l with
  | nil => simpa [removeS, keysS] using h
  | cons p t ih =>
    obtain ⟨k', v'⟩ := p
    by_cases hk : k = k'
    · subst hk
      simp only [removeS, if_pos rfl] at h
      exact List.mem_cons_of_mem _ h
    · simp only [removeS, if_neg hk, keysS_cons, List.mem_cons] at h ⊢
      tauto

theorem sortedKeys_insertS {β : Type} {k : Nat} {v : β} {l : List (Nat × β)}
    (h : SortedKeys l) : SortedKeys (insertS k v l) := by
  induction l with
  | nil => simp [insertS, SortedKeys]
  | cons p t ih =>
    obtain ⟨k', v'⟩ := p
    rcases List.pairwise_cons.1 h with ⟨hp, ht⟩
    by_cases h1 : k < k'
    · show SortedKeys (if k < k' then _ else _)
      rw [if_pos h1]
      refine List.pairwise_cons.2 ⟨?_, h⟩
      rintro ⟨a, b⟩ hab
      rcases List.mem_cons.1 hab with h' | h'
      · cases h'; exact h1
      · exact lt_trans h1 (hp _ h')
    · by_cases h2 : k = k'
      · subst h2
        show SortedKeys (if k < k then _ else if k = k then _ else _)
        rw [if_neg h1, if_pos rfl]
        exact List.pairwise_cons.2 ⟨hp, ht⟩
      · show SortedKeys (if k < k' then _ else if k = k' then _ else _)
        rw [if_neg h1, if_neg h2]
        refine List.pairwise_cons.2 ⟨?_, ih ht⟩
        rintro ⟨a, b⟩ hab
        have hmemk : a ∈ keysS (insertS k v t) := mem_keysS.2 ⟨b, hab⟩
        rcases mem_keysS_insertS.1 hmemk with rfl | h'
        · omega
        · obtain ⟨w, hw⟩ := mem_keysS.1 h'
          exact hp (a, w) hw

theorem sortedKeys_removeS {β : Type} {k : Nat} {l : List (Nat × β)}
    (h : SortedKeys l) : SortedKeys (removeS k l) := by
  induction l with
  | nil => simp [removeS, SortedKeys]
  | cons p t ih =>
    obtain ⟨k', v'⟩ := p
    rcases List.pairwise_cons.1 h with ⟨hp, ht⟩
    by_cases hk : k = k'
    · subst hk
      simpa [removeS] using ht
    · simp only [removeS, if_neg hk]
      refine List.pairwise_cons.2 ⟨?_, ih ht⟩
      rintro ⟨a, b⟩ hab
      have hmk : a ∈ keysS (removeS k t) := mem_keysS.2 ⟨b, hab⟩
      obtain ⟨w, hw⟩ := mem_keysS.1 (keysS_removeS_subset hmk)
      exact hp (a, w) hw

theorem removeS_insertS {β : Type} {k : Nat} {v : β} {l : List (Nat × β)}
    (h : k ∉ keysS l) : removeS k (insertS k v l) = l := by
  induction l with
  | nil => simp [insertS, removeS]
  | cons p t ih =>
    obtain ⟨k', v'⟩ := p
    simp only [keysS_cons, List.mem_cons] at h
    push_neg at h
    obtain ⟨hne, hnot⟩ := h
    by_cases h1 : k < k'
    · simp [insertS, h1, removeS]
    · simp only [insertS, if_neg h1, if_neg hne, removeS, if_neg hne]
      rw [ih hnot]

theorem insertS_removeS {β : Type} {k : Nat} {v : β} {l : List (Nat × β)}
    (hs : SortedKeys l) (h : (k, v) ∈ l) : insertS k v (removeS k l) = l := by
  induction l with
  | nil => simp at h
  | cons p t ih =>
    obtain ⟨k', v'⟩ := p
    rcases List.pairwise_cons.1 hs with ⟨hp, ht⟩
    by_cases hk : k = k'
    · subst hk
      have hv : v = v' := by
        rcases List.mem_cons.1 h with h' | h'
        · exact (Prod.mk.injEq .. ▸ h').2.symm ▸ rfl
        · exact absurd (hp _ h') (lt_irrefl _)
      subst hv
      simp only [removeS, if_pos rfl]
      cases t with
      | nil => simp [insertS]
      | cons q u =>
        obtain ⟨kq, vq⟩ := q
        have hlt : k < kq := hp _ (List.mem_cons_self _ _)
        simp [insertS, hlt]
    · have hmem : (k, v) ∈ t := by
        rcases List.mem_cons.1 h with h' | h'
        · exact absurd (congrArg Prod.fst h') hk
        · exact h'
      have hlt : k' < k := hp _ hmem
      simp only [removeS, if_neg hk, insertS, if_neg (Nat.lt_asymm hlt), if_neg hk]
      rw [ih ht hmem]

theorem lookupS_insertS_self {β : Type} {k : Nat} {v : β} (l : List (Nat × β)) :
    lookupS k (insertS k v l) = some v := by
  induction l with
  | nil => simp [insertS, lookupS]
  | cons p t ih =>
    obtain ⟨k', v'⟩ := p
    by_cases h1 : k < k'
    · simp [insertS, h1, lookupS]
    · by_cases h2 : k = k'
      · subst h2; simp [insertS, h1, lookupS]
      · simp [insertS, h1, h2, lookupS, ih]

theorem lookupS_insertS_ne {β : Type} {a k : Nat} {v : β} {l : List (Nat × β)}
    (hne : a ≠ k) : lookupS a (insertS k v l) = lookupS a l := by
  induction l with
  | nil => simp [insertS, lookupS, hne]
  | cons p t ih =>
    obtain ⟨k', v'⟩ := p
    by_cases h1 : k < k'
    · simp [insertS, h1, lookupS, hne]
    · by_cases h2 : k = k'
      · subst h2; simp [insertS, h1, lookupS, hne]
      · by_cases h3 : a = k'
        · subst h3; simp [insertS, h1, h2, lookupS]
        · simp [insertS, h1, h2, lookupS, h3, ih]

theorem lookupS_removeS_ne {β : Type} {a k : Nat} {l : List (Nat × β)}
    (hne : a ≠ k) : lookupS a (removeS k l) = lookupS a l := by
  induction l with
  | nil => simp [removeS]
  | cons p t ih =>
    obtain ⟨k', v'⟩ := p
    by_cases hk : k = k'
    · subst hk
      simp [removeS, lookupS, hne]
    · by_cases h3 : a = k'
      · subst h3; simp [removeS, hk, lookupS]
      · simp [removeS, hk, lookupS, h3, ih]

/-! ### Ledger, transactions, blocks and diffs

The consensus engine itself is not part of the repository snapshot (only its
tests are), so the data model and the diff engine below are modelled from the
specification: blocks carry transactions; transactions spend live outputs,
create outputs and create file contracts; every ledger change is an invertible
diff. -/

/-- Modelled from the spec: the number of siafund shares (`types.SiafundCount`);
contract taxes are rounded down to a multiple of it. -/
def SiafundCount : Nat := 10000

/-- Modelled from the spec: the hard-fork height at which the tax formula
changes.  The consensus tester runs with a low testing value (its comments
speak of mining past "the file contract hardfork threshold (10)"). -/
def taxHardforkHeight : Nat := 10

/-- Round `v` down to a multiple of `n`. -/
def roundDown (v n : Nat) : Nat := v - v % n

/-- Modelled from the spec: the legacy pre-hardfork tax.  The historical code
computes `payout.MulFloat(0.039)` with exact rational arithmetic on the
float64 nearest 0.039 — whose exact value is 5620492334958379 / 2^57 — floors
the quotient, and rounds down to a multiple of `SiafundCount`.  This is the
"faulty float amount" the hardfork test pins down. -/
def legacyTax (payout : Nat) : Nat :=
  roundDown (payout * 5620492334958379 / 144115188075855872) SiafundCount

/-- Modelled from the spec: the corrected post-hardfork tax, an exact 3.9
percent of the payout rounded down to a multiple of `SiafundCount`. -/
def postTax (payout : Nat) : Nat :=
  roundDown (payout * 39 / 1000) SiafundCount

/-- Modelled from the spec: the tax levied on a file contract entering the
chain at `height`; the hard-fork height boundary selects between the two
formulas. -/
def tax (height payout : Nat) : Nat :=
  if height < taxHardforkHeight then legacyTax payout else postTax payout

/-- A file contract as written in a transaction: its payout and the end of its
proof window. -/
structure FileContract where
  payout : Nat
  windowEnd : Nat
deriving Repr, DecidableEq

/-- A file contract as stored in the ledger: payload plus the height of the
block that created it, which fixes the tax formula applied to it. -/
structure CInfo where
  payout : Nat
  windowEnd : Nat
  createH : Nat
deriving Repr, DecidableEq

/-- A transaction: ids of the live siacoin outputs it spends, the outputs it
creates (id, value), and the file contracts it creates (id, contract). -/
structure Txn where
  inputs : List Nat
  outputs : List (Nat × Nat)
  contracts : List (Nat × FileContract)
deriving Repr, DecidableEq

/-- A block: content identity, parent identity, timestamp, the proof-of-work
weight it contributes to cumulative difficulty (implied by its parent's
target), and its ordered transactions. -/
structure Block where
  bid : Nat
  parent : Nat
  timestamp : Nat
  work : Nat
  txns : List Txn
deriving Repr, DecidableEq

/-- The ledger portion of consensus state: live outputs, live contracts (both
sorted keyed stores), the siafund tax pool and the chain height. -/
structure Ledger where
  outputs : List (Nat × Nat)
  contracts : List (Nat × CInfo)
  pool : Nat
  height : Nat
deriving Repr, DecidableEq

/-- A tagged invertible record of one elementary ledger change. -/
inductive Diff where
  | outAdd (oid val : Nat)
  | outRem (oid val : Nat)
  | conAdd (fcid : Nat) (c : CInfo)
  | conRem (fcid : Nat) (c : CInfo)
  | poolInc (amt : Nat)
  | heightInc
deriving Repr, DecidableEq

/-- Apply one diff in the forward direction. -/
def applyDiff (L : Ledger) : Diff → Ledger
  | .outAdd k v => { L with outputs := insertS k v L.outputs }
  | .outRem k _ => { L with outputs := removeS k L.outputs }
  | .conAdd k c => { L with contracts := insertS k c L.contracts }
  | .conRem k _ => { L with contracts := removeS k L.contracts }
  | .poolInc a => { L with pool := L.pool + a }
  | .heightInc => { L with height := L.height + 1 }

/-- Apply one diff in the reverse direction. -/
def revertDiff (L : Ledger) : Diff → Ledger
  | .outAdd k _ => { L with outputs := removeS k L.outputs }
  | .outRem k v => { L with outputs := insertS k v L.outputs }
  | .conAdd k _ => { L with contracts := removeS k L.contracts }
  | .conRem k c => { L with contracts := insertS k c L.contracts }
  | .poolInc a => { L with pool := L.pool - a }
  | .heightInc => { L with height := L.height - 1 }

/-- Apply a list of diffs in order. -/
def applyDiffs (L : Ledger) (ds : List Diff) : Ledger := ds.foldl applyDiff L

/-- Revert a list of diffs, most recent first. -/
def revertDiffs (L : Ledger) (ds : List Diff) : Ledger := ds.reverse.foldl revertDiff L

/-- Soundness condition for applying one diff to a ledger: removals name an
entry that is present (with its recorded payload) and additions use a fresh
key.  Diffs produced by the diff engine always satisfy it. -/
def DiffOk (L : Ledger) : Diff → Prop
  | .outAdd k _ => k ∉ keysS L.outputs
  | .outRem k v => (k, v) ∈ L.outputs
  | .conAdd k _ => k ∉ keysS L.contracts
  | .conRem k c => (k, c) ∈ L.contracts
  | .poolInc _ => True
  | .heightInc => True

/-- Soundness of a diff sequence: each diff is sound at the point where it is
applied. -/
inductive DiffsOk : Ledger → List Diff → Prop
  | nil (L : Ledger) : DiffsOk L []
  | cons {L : Ledger} {d : Diff} {ds : List Diff} :
      DiffOk L d → DiffsOk (applyDiff L d) ds → DiffsOk L (d :: ds)

/-- The representation invariant of a ledger: both keyed stores are sorted. -/
def LInv (L : Ledger) : Prop := SortedKeys L.outputs ∧ SortedKeys L.contracts

theorem mem_removeS_ne {β : Type} {k k' : Nat} {v : β} {l : List (Nat × β)}
    (h : (k, v) ∈ l) (hne : k ≠ k') : (k, v) ∈ removeS k' l := by
  induction l with
  | nil => simp at h
  | cons p t ih =>
    obtain ⟨ka, va⟩ := p
    by_cases hk : k' = ka
    · subst hk
      rcases List.mem_cons.1 h with h' | h'
      · cases h'; exact absurd rfl hne
      · simpa [removeS] using h'
    · simp only [removeS, if_neg hk]
      rcases List.mem_cons.1 h with h' | h'
      · cases h'; exact List.mem_cons_self _ _
      · exact List.mem_cons_of_mem _ (ih h')

theorem applyDiff_LInv {L : Ledger} {d : Diff} (h : LInv L) : LInv (applyDiff L d) := by
  obtain ⟨h1, h2⟩ := h
  cases d with
  | outAdd k v => exact ⟨sortedKeys_insertS h1, h2⟩
  | outRem k v => exact ⟨sortedKeys_removeS h1, h2⟩
  | conAdd k c => exact ⟨h1, sortedKeys_insertS h2⟩
  | conRem k c => exact ⟨h1, sortedKeys_removeS h2⟩
  | poolInc a => exact ⟨h1, h2⟩
  | heightInc => exact ⟨h1, h2⟩

theorem applyDiffs_LInv {L : Ledger} {ds : List Diff} (h : LInv L) :
    LInv (applyDiffs L ds) := by
  induction ds generalizing L with
  | nil => exact h
  | cons d ds ih => exact ih (applyDiff_LInv h)

theorem applyDiffs_nil (L : Ledger) : applyDiffs L [] = L := rfl

theorem applyDiffs_cons (L : Ledger) (d : Diff) (ds : List Diff) :
    applyDiffs L (d :: ds) = applyDiffs (applyDiff L d) ds := rfl

theorem applyDiffs_append (L : Ledger) (ds1 ds2 : List Diff) :
    applyDiffs L (ds1 ++ ds2) = applyDiffs (applyDiffs L ds1) ds2 := by
  simp [applyDiffs, List.foldl_append]

theorem revertDiffs_nil (L : Ledger) : revertDiffs L [] = L := rfl

theorem revertDiffs_cons (L : Ledger) (d : Diff) (ds : List Diff) :
    revertDiffs L (d :: ds) = revertDiff (revertDiffs L ds) d := by
  simp [revertDiffs, List.foldl_append]

/-- Reverting one sound diff undoes applying it, exactly. -/
theorem revertDiff_applyDiff {L : Ledger} {d : Diff} (hinv : LInv L)
    (h : DiffOk L d) : revertDiff (applyDiff L d) d = L := by
  obtain ⟨h1, h2⟩ := hinv
  cases d with
  | outAdd k v =>
    simp only [applyDiff, revertDiff]
    rw [removeS_insertS h]
  | outRem k v =>
    simp only [applyDiff, revertDiff]
    rw [insertS_removeS h1 h]
  | conAdd k c =>
    simp only [applyDiff, revertDiff]
    rw [removeS_insertS h]
  | conRem k c =>
    simp only [applyDiff, revertDiff]
    rw [insertS_removeS h2 h]
  | poolInc a =>
    simp only [applyDiff, revertDiff, Nat.add_sub_cancel]
  | heightInc =>
    simp only [applyDiff, revertDiff, Nat.add_sub_cancel]

/-- Reverting a sound diff sequence undoes applying it, exactly: the
command-pattern rollback property the fork resolver relies on. -/
theorem revertDiffs_applyDiffs {L : Ledger} {ds : List Diff} (hinv : LInv L)
    (h : DiffsOk L ds) : revertDiffs (applyDiffs L ds) ds = L := by
  induction h with
  | nil L => rfl
  | cons hd hds ih =>
    rename_i L d ds
    rw [applyDiffs_cons, revertDiffs_cons, ih (applyDiff_LInv hinv),
      revertDiff_applyDiff hinv hd]

theorem diffsOk_append {L : Ledger} {ds1 ds2 : List Diff}
    (h1 : DiffsOk L ds1) (h2 : DiffsOk (applyDiffs L ds1) ds2) :
    DiffsOk L (ds1 ++ ds2) := by
  induction h1 with
  | nil L => simpa using h2
  | cons hd hds ih =>
    rename_i L d ds
    exact DiffsOk.cons hd (ih (by simpa [applyDiffs_cons] using h2))


/-! ### The diff engine: per-transaction and per-block diff generation -/

/-- Semantic validation errors. -/
inductive VErr where
  | missingInput
  | doubleSpend
  | dupOutput
  | dupContract
  | badBalance
deriving Repr, DecidableEq

deriving instance DecidableEq for Except

/-- Sum of the values of a list of keyed outputs. -/
def valSum (l : List (Nat × Nat)) : Nat := (l.map Prod.snd).sum

/-- Sum of the payouts of a list of keyed file contracts. -/
def conPayoutSum (l : List (Nat × FileContract)) : Nat :=
  (l.map (fun p => p.2.payout)).sum

/-- Total tax levied on a list of file contracts created at height `h`. -/
def conTaxSum (h : Nat) (l : List (Nat × FileContract)) : Nat :=
  (l.map (fun p => tax h p.2.payout)).sum

/-- Resolve each spent input to its live output entry, failing when an input
does not reference a currently-live output. -/
def inputVals (L : Ledger) : List Nat → Option (List (Nat × Nat))
  | [] => some []
  | k :: t =>
    match lookupS k L.outputs, inputVals L t with
    | some v, some r => some ((k, v) :: r)
    | _, _ => none

/-- The diff list a valid transaction produces: removals of its spent inputs,
additions of its created outputs, additions of its created contracts stamped
with the creation height, and the tax payment into the pool. -/
def txnOkDiffs (L : Ledger) (t : Txn) (ivs : List (Nat × Nat)) : List Diff :=
  ivs.map (fun p => Diff.outRem p.1 p.2)
    ++ t.outputs.map (fun p => Diff.outAdd p.1 p.2)
    ++ (t.contracts.map
          (fun p => (p.1, CInfo.mk p.2.payout p.2.windowEnd L.height))).map
        (fun p => Diff.conAdd p.1 p.2)
    ++ [Diff.poolInc (conTaxSum L.height t.contracts)]

/-- Diffs of one transaction against a ledger snapshot, or a semantic
validation error.  Per the spec: every input must reference a live output, no
output may be spent twice, created outputs and contracts must have fresh
identities, and inputs must cover outputs plus contract payouts.  Creating a
contract pays its tax — selected by the creation height — into the pool. -/
def txnDiffs (L : Ledger) (t : Txn) : Except VErr (List Diff) :=
  match inputVals L t.inputs with
  | none => .error .missingInput
  | some ivs =>
    if t.inputs.Nodup then
      if (t.outputs.map Prod.fst).Nodup ∧ ∀ p ∈ t.outputs, p.1 ∉ keysS L.outputs then
        if (t.contracts.map Prod.fst).Nodup ∧
            ∀ p ∈ t.contracts, p.1 ∉ keysS L.contracts then
          if valSum t.outputs + conPayoutSum t.contracts ≤ valSum ivs then
            .ok (txnOkDiffs L t ivs)
          else .error .badBalance
        else .error .dupContract
      else .error .dupOutput
    else .error .doubleSpend

/-- Diffs of an ordered transaction list, each transaction validated against
the ledger produced by its predecessors; the first offending transaction
aborts the whole computation. -/
def txnsDiffs : Ledger → List Txn → Except VErr (List Diff)
  | _, [] => .ok []
  | L, t :: ts =>
    match txnDiffs L t with
    | .error e => .error e
    | .ok ds =>
      match txnsDiffs (applyDiffs L ds) ts with
      | .error e => .error e
      | .ok rest => .ok (ds ++ rest)

/-- Start-of-block diffs: the height advances, and every live contract whose
proof window has ended at the new height resolves and leaves the live set. -/
def resolutionDiffs (L : Ledger) : List Diff :=
  Diff.heightInc ::
    (L.contracts.filter (fun p => p.2.windowEnd ≤ L.height + 1)).map
      (fun p => Diff.conRem p.1 p.2)

/-- Diffs of a whole block against a ledger snapshot: height advance and
contract resolution, then the transactions in declaration order. -/
def blockDiffs (L : Ledger) (b : Block) : Except VErr (List Diff) :=
  match txnsDiffs (applyDiffs L (resolutionDiffs L)) b.txns with
  | .error e => .error e
  | .ok rest => .ok (resolutionDiffs L ++ rest)

/-- Apply one block: compute its diffs and apply them. -/
def applyBlock (L : Ledger) (b : Block) : Except VErr (Ledger × List Diff) :=
  match blockDiffs L b with
  | .error e => .error e
  | .ok ds => .ok (applyDiffs L ds, ds)

/-- Apply an ordered list of blocks, collecting the per-block diff lists. -/
def applyMany (L : Ledger) : List Block → Except VErr (Ledger × List (List Diff))
  | [] => .ok (L, [])
  | b :: t =>
    match applyBlock L b with
    | .error e => .error e
    | .ok p =>
      match applyMany p.1 t with
      | .error e => .error e
      | .ok q => .ok (q.1, p.2 :: q.2)

theorem inputVals_keys {L : Ledger} {ks : List Nat} {ivs : List (Nat × Nat)}
    (h : inputVals L ks = some ivs) : ivs.map Prod.fst = ks := by
  induction ks generalizing ivs with
  | nil =>
    simp only [inputVals, Option.some.injEq] at h
    subst h; rfl
  | cons k t ih =>
    simp only [inputVals] at h
    cases hl : lookupS k L.outputs with
    | none => rw [hl] at h; simp at h
    | some v =>
      rw [hl] at h
      cases hr : inputVals L t with
      | none => rw [hr] at h; simp at h
      | some r =>
        rw [hr] at h
        simp only [Option.some.injEq] at h
        subst h
        simp [ih hr]

theorem inputVals_mem {L : Ledger} {ks : List Nat} {ivs : List (Nat × Nat)}
    (h : inputVals L ks = some ivs) : ∀ p ∈ ivs, p ∈ L.outputs := by
  induction ks generalizing ivs with
  | nil =>
    simp only [inputVals, Option.some.injEq] at h
    subst h; simp
  | cons k t ih =>
    simp only [inputVals] at h
    cases hl : lookupS k L.outputs with
    | none => rw [hl] at h; simp at h
    | some v =>
      rw [hl] at h
      cases hr : inputVals L t with
      | none => rw [hr] at h; simp at h
      | some r =>
        rw [hr] at h
        simp only [Option.some.injEq] at h
        subst h
        intro p hp
        rcases List.mem_cons.1 hp with h' | h'
        · subst h'; exact lookupS_mem hl
        · exact ih hr p h'

theorem applyDiffs_outRems_spec (ivs : List (Nat × Nat)) (M : Ledger) :
    applyDiffs M (ivs.map (fun p => Diff.outRem p.1 p.2)) =
      { M with outputs := ivs.foldl (fun o p => removeS p.1 o) M.outputs } := by
  induction ivs generalizing M with
  | nil => rfl
  | cons p t ih =>
    simp only [List.map_cons, applyDiffs_cons, List.foldl_cons]
    rw [ih]
    rfl

theorem applyDiffs_outAdds_spec (outs : List (Nat × Nat)) (M : Ledger) :
    applyDiffs M (outs.map (fun p => Diff.outAdd p.1 p.2)) =
      { M with outputs := outs.foldl (fun o p => insertS p.1 p.2 o) M.outputs } := by
  induction outs generalizing M with
  | nil => rfl
  | cons p t ih =>
    simp only [List.map_cons, applyDiffs_cons, List.foldl_cons]
    rw [ih]
    rfl

theorem applyDiffs_conAdds_spec (cs : List (Nat × CInfo)) (M : Ledger) :
    applyDiffs M (cs.map (fun p => Diff.conAdd p.1 p.2)) =
      { M with contracts := cs.foldl (fun o p => insertS p.1 p.2 o) M.contracts } := by
  induction cs generalizing M with
  | nil => rfl
  | cons p t ih =>
    simp only [List.map_cons, applyDiffs_cons, List.foldl_cons]
    rw [ih]
    rfl

theorem keys_foldl_removeS {a : Nat} (ivs : List (Nat × Nat)) (o : List (Nat × Nat))
    (h : a ∈ keysS (ivs.foldl (fun o p => removeS p.1 o) o)) : a ∈ keysS o := by
  induction ivs generalizing o with
  | nil => exact h
  | cons p t ih =>
    simp only [List.foldl_cons] at h
    exact keysS_removeS_subset (ih _ h)

theorem keys_foldl_insertS {β : Type} {a : Nat} (l : List (Nat × β)) (o : List (Nat × β))
    (h : a ∈ keysS (l.foldl (fun o p => insertS p.1 p.2 o) o)) :
    a ∈ keysS o ∨ a ∈ l.map Prod.fst := by
  induction l generalizing o with
  | nil => exact Or.inl h
  | cons p t ih =>
    simp only [List.foldl_cons] at h
    rcases ih _ h with h' | h'
    · rcases mem_keysS_insertS.1 h' with rfl | h''
      · exact Or.inr (by simp)
      · exact Or.inl h''
    · exact Or.inr (List.mem_cons_of_mem _ h')

theorem diffsOk_outRems {M : Ledger} {ivs : List (Nat × Nat)}
    (hnd : (ivs.map Prod.fst).Nodup) (hmem : ∀ p ∈ ivs, p ∈ M.outputs) :
    DiffsOk M (ivs.map (fun p => Diff.outRem p.1 p.2)) := by
  induction ivs generalizing M with
  | nil => exact DiffsOk.nil M
  | cons p t ih =>
    obtain ⟨k, v⟩ := p
    simp only [List.map_cons] at hnd ⊢
    rcases List.nodup_cons.1 hnd with ⟨hk, hnd'⟩
    refine DiffsOk.cons (hmem _ (List.mem_cons_self _ _)) ?_
    refine ih hnd' ?_
    intro q hq
    have hqm : q ∈ M.outputs := hmem _ (List.mem_cons_of_mem _ hq)
    have hqk : q.1 ≠ k := by
      intro hEq
      exact hk (List.mem_map.2 ⟨q, hq, hEq⟩)
    exact mem_removeS_ne hqm hqk

theorem diffsOk_outAdds {M : Ledger} {outs : List (Nat × Nat)}
    (hnd : (outs.map Prod.fst).Nodup) (hfresh : ∀ p ∈ outs, p.1 ∉ keysS M.outputs) :
    DiffsOk M (outs.map (fun p => Diff.outAdd p.1 p.2)) := by
  induction outs generalizing M with
  | nil => exact DiffsOk.nil M
  | cons p t ih =>
    obtain ⟨k, v⟩ := p
    simp only [List.map_cons] at hnd ⊢
    rcases List.nodup_cons.1 hnd with ⟨hk, hnd'⟩
    refine DiffsOk.cons (hfresh _ (List.mem_cons_self _ _)) ?_
    refine ih hnd' ?_
    intro q hq hmemq
    rcases mem_keysS_insertS.1 hmemq with heq | h'
    · exact hk (heq ▸ (List.mem_map.2 ⟨q, hq, heq ▸ rfl⟩))
    · exact hfresh _ (List.mem_cons_of_mem _ hq) h'

theorem diffsOk_conAdds {M : Ledger} {cs : List (Nat × CInfo)}
    (hnd : (cs.map Prod.fst).Nodup) (hfresh : ∀ p ∈ cs, p.1 ∉ keysS M.contracts) :
    DiffsOk M (cs.map (fun p => Diff.conAdd p.1 p.2)) := by
  induction cs generalizing M with
  | nil => exact DiffsOk.nil M
  | cons p t ih =>
    obtain ⟨k, v⟩ := p
    simp only [List.map_cons] at hnd ⊢
    rcases List.nodup_cons.1 hnd with ⟨hk, hnd'⟩
    refine DiffsOk.cons (hfresh _ (List.mem_cons_self _ _)) ?_
    refine ih hnd' ?_
    intro q hq hmemq
    rcases mem_keysS_insertS.1 hmemq with heq | h'
    · exact hk (heq ▸ (List.mem_map.2 ⟨q, hq, heq ▸ rfl⟩))
    · exact hfresh _ (List.mem_cons_of_mem _ hq) h'

theorem diffsOk_conRems {M : Ledger} {cs : List (Nat × CInfo)}
    (hnd : (cs.map Prod.fst).Nodup) (hmem : ∀ p ∈ cs, p ∈ M.contracts) :
    DiffsOk M (cs.map (fun p => Diff.conRem p.1 p.2)) := by
  induction cs generalizing M with
  | nil => exact DiffsOk.nil M
  | cons p t ih =>
    obtain ⟨k, v⟩ := p
    simp only [List.map_cons] at hnd ⊢
    rcases List.nodup_cons.1 hnd with ⟨hk, hnd'⟩
    refine DiffsOk.cons (hmem _ (List.mem_cons_self _ _)) ?_
    refine ih hnd' ?_
    intro q hq
    have hqm : q ∈ M.contracts := hmem _ (List.mem_cons_of_mem _ hq)
    have hqk : q.1 ≠ k := by
      intro hEq
      exact hk (List.mem_map.2 ⟨q, hq, hEq⟩)
    exact mem_removeS_ne hqm hqk

/-- Inversion of a successful transaction validation: all guards held and the
diffs are the canonical `txnOkDiffs` list. -/
theorem txnDiffs_ok_inv {L : Ledger} {t : Txn} {ds : List Diff}
    (h : txnDiffs L t = .ok ds) :
    ∃ ivs, inputVals L t.inputs = some ivs ∧ t.inputs.Nodup ∧
      ((t.outputs.map Prod.fst).Nodup ∧ ∀ p ∈ t.outputs, p.1 ∉ keysS L.outputs) ∧
      ((t.contracts.map Prod.fst).Nodup ∧
        ∀ p ∈ t.contracts, p.1 ∉ keysS L.contracts) ∧
      valSum t.outputs + conPayoutSum t.contracts ≤ valSum ivs ∧
      ds = txnOkDiffs L t ivs := by
  unfold txnDiffs at h
  split at h
  · simp at h
  · rename_i ivs hiv
    by_cases h1 : t.inputs.Nodup
    · rw [if_pos h1] at h
      by_cases h2 : (t.outputs.map Prod.fst).Nodup ∧
          ∀ p ∈ t.outputs, p.1 ∉ keysS L.outputs
      · rw [if_pos h2] at h
        by_cases h3 : (t.contracts.map Prod.fst).Nodup ∧
            ∀ p ∈ t.contracts, p.1 ∉ keysS L.contracts
        · rw [if_pos h3] at h
          by_cases h4 : valSum t.outputs + conPayoutSum t.contracts ≤ valSum ivs
          · rw [if_pos h4] at h
            simp only [Except.ok.injEq] at h
            exact ⟨ivs, hiv, h1, h2, h3, h4, h.symm⟩
          · rw [if_neg h4] at h
            simp at h
        · rw [if_neg h3] at h
          simp at h
      · rw [if_neg h2] at h
        simp at h
    · rw [if_neg h1] at h
      simp at h

theorem txnDiffs_ok {L : Ledger} {t : Txn} {ds : List Diff}
    (h : txnDiffs L t = .ok ds) : DiffsOk L ds := by
  obtain ⟨ivs, hiv, hnd, ⟨hond, hofresh⟩, ⟨hcnd, hcfresh⟩, hbal, rfl⟩ :=
    txnDiffs_ok_inv h
  have hivk := inputVals_keys hiv
  have hivm := inputVals_mem hiv
  unfold txnOkDiffs
  have hA : DiffsOk L (ivs.map (fun p => Diff.outRem p.1 p.2)) :=
    diffsOk_outRems (by rw [hivk]; exact hnd) hivm
  have hM1 := applyDiffs_outRems_spec ivs L
  have hB : DiffsOk (applyDiffs L (ivs.map (fun p => Diff.outRem p.1 p.2)))
      (t.outputs.map (fun p => Diff.outAdd p.1 p.2)) := by
    refine diffsOk_outAdds hond ?_
    intro p hp hmem
    rw [hM1] at hmem
    exact hofresh p hp (keys_foldl_removeS ivs L.outputs hmem)
  have hAB := diffsOk_append hA hB
  have hM2 := applyDiffs_outAdds_spec t.outputs
    (applyDiffs L (ivs.map (fun p => Diff.outRem p.1 p.2)))
  have hC : DiffsOk
      (applyDiffs L (ivs.map (fun p => Diff.outRem p.1 p.2)
        ++ t.outputs.map (fun p => Diff.outAdd p.1 p.2)))
      ((t.contracts.map
          (fun p => (p.1, CInfo.mk p.2.payout p.2.windowEnd L.height))).map
        (fun p => Diff.conAdd p.1 p.2)) := by
    rw [applyDiffs_append, hM2]
    refine diffsOk_conAdds ?_ ?_
    · rw [List.map_map]
      exact hcnd
    · intro p hp hmem
      simp only [List.mem_map] at hp
      obtain ⟨q, hq, rfl⟩ := hp
      rw [hM1] at hmem
      exact hcfresh q hq hmem
  have hABC := diffsOk_append hAB hC
  refine diffsOk_append hABC ?_
  exact DiffsOk.cons trivial (DiffsOk.nil _)

/-- Inversion of successful validation of a transaction list. -/
theorem txnsDiffs_cons_ok {L : Ledger} {t : Txn} {ts : List Txn} {ds : List Diff}
    (h : txnsDiffs L (t :: ts) = .ok ds) :
    ∃ ds1 rest, txnDiffs L t = .ok ds1 ∧
      txnsDiffs (applyDiffs L ds1) ts = .ok rest ∧ ds = ds1 ++ rest := by
  unfold txnsDiffs at h
  split at h
  · simp at h
  · rename_i ds1 h1
    split at h
    · simp at h
    · rename_i rest h2
      simp only [Except.ok.injEq] at h
      exact ⟨ds1, rest, h1, h2, h.symm⟩

theorem txnsDiffs_ok {L : Ledger} {ts : List Txn} {ds : List Diff}
    (h : txnsDiffs L ts = .ok ds) : DiffsOk L ds := by
  induction ts generalizing L ds with
  | nil =>
    simp only [txnsDiffs, Except.ok.injEq] at h
    subst h
    exact DiffsOk.nil L
  | cons t ts ih =>
    obtain ⟨ds1, rest, h1, h2, rfl⟩ := txnsDiffs_cons_ok h
    exact diffsOk_append (txnDiffs_ok h1) (ih h2)

theorem resolutionDiffs_ok {L : Ledger} (hinv : LInv L) :
    DiffsOk L (resolutionDiffs L) := by
  refine DiffsOk.cons trivial ?_
  refine diffsOk_conRems ?_ ?_
  · have hsub : List.Sublist
        ((L.contracts.filter (fun p => p.2.windowEnd ≤ L.height + 1)).map Prod.fst)
        (L.contracts.map Prod.fst) := (List.filter_sublist _).map _
    exact (sortedKeys_nodup hinv.2).sublist hsub
  · intro p hp
    exact (List.mem_filter.1 hp).1

/-- Inversion of successful block validation. -/
theorem blockDiffs_ok_inv {L : Ledger} {b : Block} {ds : List Diff}
    (h : blockDiffs L b = .ok ds) :
    ∃ rest, txnsDiffs (applyDiffs L (resolutionDiffs L)) b.txns = .ok rest ∧
      ds = resolutionDiffs L ++ rest := by
  unfold blockDiffs at h
  split at h
  · simp at h
  · rename_i rest h1
    simp only [Except.ok.injEq] at h
    exact ⟨rest, h1, h.symm⟩

theorem blockDiffs_ok {L : Ledger} {b : Block} {ds : List Diff} (hinv : LInv L)
    (h : blockDiffs L b = .ok ds) : DiffsOk L ds := by
  obtain ⟨rest, h1, rfl⟩ := blockDiffs_ok_inv h
  exact diffsOk_append (resolutionDiffs_ok hinv) (txnsDiffs_ok h1)

theorem applyBlock_ok {L L' : Ledger} {b : Block} {ds : List Diff}
    (h : applyBlock L b = .ok (L', ds)) :
    blockDiffs L b = .ok ds ∧ L' = applyDiffs L ds := by
  unfold applyBlock at h
  split at h
  · simp at h
  · rename_i ds0 h1
    simp only [Except.ok.injEq, Prod.mk.injEq] at h
    obtain ⟨hL, hd⟩ := h
    subst hd
    exact ⟨h1, hL.symm⟩

theorem applyBlock_intro {L : Ledger} {b : Block} {ds : List Diff}
    (h : blockDiffs L b = .ok ds) :
    applyBlock L b = .ok (applyDiffs L ds, ds) := by
  unfold applyBlock
  rw [h]

theorem applyBlock_LInv {L L' : Ledger} {b : Block} {ds : List Diff} (hinv : LInv L)
    (h : applyBlock L b = .ok (L', ds)) : LInv L' := by
  obtain ⟨-, hL⟩ := applyBlock_ok h
  rw [hL]
  exact applyDiffs_LInv hinv

/-- Reverting the diffs a block produced restores the exact pre-block ledger. -/
theorem revertDiffs_applyBlock {L L' : Ledger} {b : Block} {ds : List Diff}
    (hinv : LInv L) (h : applyBlock L b = .ok (L', ds)) :
    revertDiffs L' ds = L := by
  obtain ⟨hbd, hL⟩ := applyBlock_ok h
  rw [hL]
  exact revertDiffs_applyDiffs hinv (blockDiffs_ok hinv hbd)

/-- Inversion of a successful multi-block application. -/
theorem applyMany_cons_ok {L L' : Ledger} {bb : Block} {t : List Block}
    {dss : List (List Diff)} (h : applyMany L (bb :: t) = .ok (L', dss)) :
    ∃ L1 ds dss', applyBlock L bb = .ok (L1, ds) ∧
      applyMany L1 t = .ok (L', dss') ∧ dss = ds :: dss' := by
  unfold applyMany at h
  split at h
  · simp at h
  · rename_i p h1
    split at h
    · simp at h
    · rename_i q h2
      simp only [Except.ok.injEq, Prod.mk.injEq] at h
      obtain ⟨hL, hd⟩ := h
      subst hL
      exact ⟨p.1, p.2, q.2, h1, h2, hd.symm⟩

theorem applyMany_cons_intro {L L1 L' : Ledger} {bb : Block} {t : List Block}
    {ds : List Diff} {dss' : List (List Diff)}
    (h1 : applyBlock L bb = .ok (L1, ds)) (h2 : applyMany L1 t = .ok (L', dss')) :
    applyMany L (bb :: t) = .ok (L', ds :: dss') := by
  unfold applyMany
  rw [h1]
  simp [h2]

theorem applyMany_LInv {L L' : Ledger} {C : List Block} {dss : List (List Diff)}
    (hinv : LInv L) (h : applyMany L C = .ok (L', dss)) : LInv L' := by
  induction C generalizing L dss with
  | nil =>
    simp only [applyMany, Except.ok.injEq, Prod.mk.injEq] at h
    exact h.1 ▸ hinv
  | cons b t ih =>
    obtain ⟨L1, ds, dss', h1, h2, rfl⟩ := applyMany_cons_ok h
    exact ih (applyBlock_LInv hinv h1) h2

theorem applyMany_compose {L L1 L2 : Ledger} {X Y : List Block}
    {a b : List (List Diff)} (hX : applyMany L X = .ok (L1, a))
    (hY : applyMany L1 Y = .ok (L2, b)) :
    applyMany L (X ++ Y) = .ok (L2, a ++ b) := by
  induction X generalizing L a with
  | nil =>
    simp only [applyMany, Except.ok.injEq, Prod.mk.injEq] at hX
    obtain ⟨h1, h2⟩ := hX
    subst h1
    subst h2
    simpa using hY
  | cons bb t ih =>
    obtain ⟨La, ds, dss', h1, h2, rfl⟩ := applyMany_cons_ok hX
    rw [List.cons_append, List.cons_append]
    exact applyMany_cons_intro h1 (ih h2)

theorem applyMany_split {L L2 : Ledger} {X Y : List Block} {c : List (List Diff)}
    (h : applyMany L (X ++ Y) = .ok (L2, c)) :
    ∃ L1 a b2, applyMany L X = .ok (L1, a) ∧ applyMany L1 Y = .ok (L2, b2) ∧
      c = a ++ b2 := by
  induction X generalizing L c with
  | nil => exact ⟨L, [], c, rfl, by simpa using h, rfl⟩
  | cons bb t ih =>
    rw [List.cons_append] at h
    obtain ⟨La, ds, dss', h1, h2, rfl⟩ := applyMany_cons_ok h
    obtain ⟨L1, a, b2, ha, hb, hab⟩ := ih h2
    exact ⟨L1, ds :: a, b2, applyMany_cons_intro h1 ha, hb, by simp [hab]⟩

/-- Revert a list of per-block diff lists, most recent block first. -/
def revertMany (L : Ledger) (dss : List (List Diff)) : Ledger :=
  dss.reverse.foldl revertDiffs L

theorem revertMany_cons (L : Ledger) (ds : List Diff) (dss : List (List Diff)) :
    revertMany L (ds :: dss) = revertDiffs (revertMany L dss) ds := by
  simp [revertMany, List.foldl_append]

/-- Reverting, most recent first, the diffs that a chain of blocks produced
restores the exact starting ledger: the rollback path of the fork resolver. -/
theorem revertMany_applyMany {L L' : Ledger} {C : List Block}
    {dss : List (List Diff)} (hinv : LInv L)
    (h : applyMany L C = .ok (L', dss)) : revertMany L' dss = L := by
  induction C generalizing L dss with
  | nil =>
    simp only [applyMany, Except.ok.injEq, Prod.mk.injEq] at h
    obtain ⟨h1, h2⟩ := h
    subst h1
    subst h2
    rfl
  | cons b t ih =>
    obtain ⟨L1, ds, dss', h1, h2, rfl⟩ := applyMany_cons_ok h
    rw [revertMany_cons, ih (applyBlock_LInv hinv h1) h2,
      revertDiffs_applyBlock hinv h1]

/-! ### The consensus set: chain index, fork resolver, block acceptance

Modelled from the spec's `accept` algorithm: DoS-cache check, known-block
check, timestamp checks, orphan check, then either head extension, indexing of
a lighter fork, or a reorganization that reverts to the common ancestor and
applies the heavier candidate path. -/

/-- Errors returned by `accept`. -/
inductive AErr where
  | dos
  | known
  | extremeFuture
  | future
  | orphan
  | nonExtending
  | invalid (e : VErr)
deriving Repr, DecidableEq

/-- Modelled from the spec: the soft future-timestamp threshold (seconds). -/
def FutureThreshold : Nat := 10800

/-- Modelled from the spec: the hard future-timestamp threshold (seconds). -/
def ExtremeFutureThreshold : Nat := 18000

/-- The identity of the genesis block. -/
def genesisId : Nat := 0

/-- Modelled from the spec: the ledger created by the genesis block — a single
premined spendable output, an empty contract set, an empty pool, height 0. -/
def genesisLedger : Ledger :=
  { outputs := [(1, 1000000000)], contracts := [], pool := 0, height := 0 }

/-- A processed block of the chain index: the block, its full path from
genesis (genesis excluded, itself included) — the explicit form of the
parent back-references — and its cumulative difficulty. -/
structure PBlock where
  blk : Block
  path : List Block
  depth : Nat
deriving Repr, DecidableEq

/-- The full consensus-set state: current ledger, current path with the diffs
each of its blocks produced, the block tree, the DoS cache of block ids known
invalid, and the buffer of soft-future blocks awaiting re-check. -/
structure CState where
  ledger : Ledger
  path : List Block
  pathDiffs : List (List Diff)
  tree : List PBlock
  dosCache : List Nat
  futureQ : List Block
deriving Repr, DecidableEq

/-- The state of a fresh consensus set: only the genesis block. -/
def genesisState : CState :=
  { ledger := genesisLedger, path := [], pathDiffs := [], tree := [],
    dosCache := [], futureQ := [] }

/-- Cumulative difficulty of a path: the sum of its blocks' work. -/
def depthOf (C : List Block) : Nat := (C.map Block.work).sum

/-- The identity of the current head (genesis when the path is empty). -/
def headId (s : CState) : Nat := (s.path.map Block.bid).getLastD genesisId

/-- Chain-index lookup of a prospective parent: its path and depth, with the
genesis block as implicit root. -/
def findParent (s : CState) (pid : Nat) : Option (List Block × Nat) :=
  if pid = genesisId then some ([], 0)
  else
    match s.tree.find? (fun pb => pb.blk.bid = pid) with
    | none => none
    | some pb => some (pb.path, pb.depth)

/-- A block id is known when it is genesis or indexed in the tree. -/
def knownBlock (s : CState) (i : Nat) : Prop :=
  i = genesisId ∨ ∃ pb ∈ s.tree, pb.blk.bid = i

instance knownBlock.dec (s : CState) (i : Nat) : Decidable (knownBlock s i) := by
  unfold knownBlock
  infer_instance

/-- Length of the longest common prefix of two paths. -/
def commonPrefixLen : List Block → List Block → Nat
  | [], _ => 0
  | _ :: _, [] => 0
  | a :: as2, b :: bs => if a = b then commonPrefixLen as2 bs + 1 else 0

/-- Modelled from the spec: `accept`, the sole mutation entry point.  In
order: the DoS cache is consulted first; known blocks are rejected; a
timestamp beyond the extreme threshold is discarded outright while one beyond
the soft threshold is buffered for re-check; a block whose parent is not
indexed is an orphan and is not cached; a block extending the current head is
validated and applied; a block on a side fork is indexed, and triggers a
reorganization — revert to the common ancestor using the stored diffs, then
apply the candidate suffix — exactly when its cumulative difficulty strictly
exceeds the current path's.  A block that fails semantic validation is cached
as permanently invalid (the model caches the submitted block's id). -/
def accept (s : CState) (b : Block) (now : Nat) : CState × Option AErr :=
  if b.bid ∈ s.dosCache then (s, some .dos)
  else if knownBlock s b.bid then (s, some .known)
  else if now + ExtremeFutureThreshold < b.timestamp then (s, some .extremeFuture)
  else if now + FutureThreshold < b.timestamp then
    ({ s with futureQ := s.futureQ ++ [b] }, some .future)
  else
    match findParent s b.parent with
    | none => (s, some .orphan)
    | some pp =>
      if b.parent = headId s then
        match applyBlock s.ledger b with
        | .error e =>
          ({ s with dosCache := s.dosCache ++ [b.bid] }, some (.invalid e))
        | .ok r =>
          ({ s with
              ledger := r.1,
              path := s.path ++ [b],
              pathDiffs := s.pathDiffs ++ [r.2],
              tree := s.tree ++ [⟨b, pp.1 ++ [b], pp.2 + b.work⟩] }, none)
      else
        if pp.2 + b.work ≤ depthOf s.path then
          ({ s with tree := s.tree ++ [⟨b, pp.1 ++ [b], pp.2 + b.work⟩] },
            some .nonExtending)
        else
          match applyMany
              (revertMany s.ledger
                (s.pathDiffs.drop (commonPrefixLen s.path (pp.1 ++ [b]))))
              ((pp.1 ++ [b]).drop (commonPrefixLen s.path (pp.1 ++ [b]))) with
          | .error e =>
            ({ s with dosCache := s.dosCache ++ [b.bid] }, some (.invalid e))
          | .ok r =>
            ({ s with
                ledger := r.1,
                path := pp.1 ++ [b],
                pathDiffs :=
                  s.pathDiffs.take (commonPrefixLen s.path (pp.1 ++ [b])) ++ r.2,
                tree := s.tree ++ [⟨b, pp.1 ++ [b], pp.2 + b.work⟩] }, none)

/-- Modelled from the spec: the background re-check of soft-future blocks;
once local time has advanced, each buffered block is fed back into `accept`
without external resubmission. -/
def tick (s : CState) (now : Nat) : CState :=
  s.futureQ.foldl (fun st b => (accept st b now).1) { s with futureQ := [] }

/-- Feed a sequence of (block, local time) submissions, keeping the state an
`accept` leaves behind regardless of the returned error. -/
def acceptSeq (s : CState) (l : List (Block × Nat)) : CState :=
  l.foldl (fun st p => (accept st p.1 p.2).1) s

/-- Feed a sequence of blocks at a fixed local time, requiring every
submission to be accepted. -/
def acceptChain (s : CState) (now : Nat) : List Block → Option CState
  | [] => some s
  | b :: t =>
    match (accept s b now).2 with
    | none => acceptChain ((accept s b now).1) now t
    | some _ => none

/-- Total value of the live output set. -/
def outputTotal (s : CState) : Nat := valSum s.ledger.outputs

/-- The externally observable consensus state: live-output total, contract
set, fund-tax pool. -/
def observables (s : CState) : Nat × List (Nat × CInfo) × Nat :=
  (outputTotal s, s.ledger.contracts, s.ledger.pool)

/-- The consistency check, modelled from the spec: recompute the ledger and
the per-block diffs from the stored current path and compare them with the
tracked state. -/
def consistent (s : CState) : Bool :=
  match applyMany genesisLedger s.path with
  | .error _ => false
  | .ok r => decide (r = (s.ledger, s.pathDiffs))

/-- The observable outcome of a guarded acceptance call: either a normal
return (new state and optional error) or a panic that unwinds the stack. -/
inductive AOutcome where
  | done (s : CState) (r : Option AErr)
  | panicked
deriving Repr, DecidableEq

/-- Acceptance followed by the consistency checker.  Modelled from the spec
and the test `TestInconsistentCheck`, which requires that a detected
inconsistency after a successful commit raises a panic. -/
def acceptChecked (s : CState) (b : Block) (now : Nat) : AOutcome :=
  let r := accept s b now
  if r.2 = none ∧ consistent r.1 = false then .panicked else .done r.1 r.2

/-! ### Branch equations of `accept` -/

theorem ts_ok_not_extreme {now ts : Nat} (h : ts ≤ now + FutureThreshold) :
    ¬ (now + ExtremeFutureThreshold < ts) := by
  unfold FutureThreshold at h
  unfold ExtremeFutureThreshold
  omega

theorem ts_ok_not_future {now ts : Nat} (h : ts ≤ now + FutureThreshold) :
    ¬ (now + FutureThreshold < ts) := by
  omega

theorem accept_dos {s : CState} {b : Block} {now : Nat}
    (h : b.bid ∈ s.dosCache) : accept s b now = (s, some .dos) := by
  unfold accept
  rw [if_pos h]

theorem accept_known {s : CState} {b : Block} {now : Nat}
    (h1 : b.bid ∉ s.dosCache) (h2 : knownBlock s b.bid) :
    accept s b now = (s, some .known) := by
  unfold accept
  rw [if_neg h1, if_pos h2]

theorem accept_future {s : CState} {b : Block} {now : Nat}
    (h1 : b.bid ∉ s.dosCache) (h2 : ¬ knownBlock s b.bid)
    (h3 : ¬ (now + ExtremeFutureThreshold < b.timestamp))
    (h4 : now + FutureThreshold < b.timestamp) :
    accept s b now = ({ s with futureQ := s.futureQ ++ [b] }, some .future) := by
  unfold accept
  rw [if_neg h1, if_neg h2, if_neg h3, if_pos h4]

theorem accept_orphan {s : CState} {b : Block} {now : Nat}
    (h1 : b.bid ∉ s.dosCache) (h2 : ¬ knownBlock s b.bid)
    (h3 : b.timestamp ≤ now + FutureThreshold)
    (h4 : findParent s b.parent = none) :
    accept s b now = (s, some .orphan) := by
  unfold accept
  rw [if_neg h1, if_neg h2, if_neg (ts_ok_not_extreme h3),
    if_neg (ts_ok_not_future h3), h4]

theorem accept_extend_ok {s : CState} {b : Block} {now : Nat}
    {pp : List Block × Nat} {r : Ledger × List Diff}
    (h1 : b.bid ∉ s.dosCache) (h2 : ¬ knownBlock s b.bid)
    (h3 : b.timestamp ≤ now + FutureThreshold)
    (h4 : findParent s b.parent = some pp) (h5 : b.parent = headId s)
    (h6 : applyBlock s.ledger b = .ok r) :
    accept s b now =
      ({ s with
          ledger := r.1,
          path := s.path ++ [b],
          pathDiffs := s.pathDiffs ++ [r.2],
          tree := s.tree ++ [⟨b, pp.1 ++ [b], pp.2 + b.work⟩] }, none) := by
  unfold accept
  rw [if_neg h1, if_neg h2, if_neg (ts_ok_not_extreme h3),
    if_neg (ts_ok_not_future h3), h4]
  simp [h5, h6]

theorem accept_extend_err {s : CState} {b : Block} {now : Nat}
    {pp : List Block × Nat} {e : VErr}
    (h1 : b.bid ∉ s.dosCache) (h2 : ¬ knownBlock s b.bid)
    (h3 : b.timestamp ≤ now + FutureThreshold)
    (h4 : findParent s b.parent = some pp) (h5 : b.parent = headId s)
    (h6 : applyBlock s.ledger b = .error e) :
    accept s b now =
      ({ s with dosCache := s.dosCache ++ [b.bid] }, some (.invalid e)) := by
  unfold accept
  rw [if_neg h1, if_neg h2, if_neg (ts_ok_not_extreme h3),
    if_neg (ts_ok_not_future h3), h4]
  simp [h5, h6]

theorem accept_nonExtending {s : CState} {b : Block} {now : Nat}
    {pp : List Block × Nat}
    (h1 : b.bid ∉ s.dosCache) (h2 : ¬ knownBlock s b.bid)
    (h3 : b.timestamp ≤ now + FutureThreshold)
    (h4 : findParent s b.parent = some pp) (h5 : b.parent ≠ headId s)
    (h6 : pp.2 + b.work ≤ depthOf s.path) :
    accept s b now =
      ({ s with tree := s.tree ++ [⟨b, pp.1 ++ [b], pp.2 + b.work⟩] },
        some .nonExtending) := by
  unfold accept
  rw [if_neg h1, if_neg h2, if_neg (ts_ok_not_extreme h3),
    if_neg (ts_ok_not_future h3), h4]
  simp [h5, h6]

theorem accept_reorg_ok {s : CState} {b : Block} {now : Nat}
    {pp : List Block × Nat} {r : Ledger × List (List Diff)}
    (h1 : b.bid ∉ s.dosCache) (h2 : ¬ knownBlock s b.bid)
    (h3 : b.timestamp ≤ now + FutureThreshold)
    (h4 : findParent s b.parent = some pp) (h5 : b.parent ≠ headId s)
    (h6 : depthOf s.path < pp.2 + b.work)
    (h7 : applyMany
        (revertMany s.ledger
          (s.pathDiffs.drop (commonPrefixLen s.path (pp.1 ++ [b]))))
        ((pp.1 ++ [b]).drop (commonPrefixLen s.path (pp.1 ++ [b]))) = .ok r) :
    accept s b now =
      ({ s with
          ledger := r.1,
          path := pp.1 ++ [b],
          pathDiffs :=
            s.pathDiffs.take (commonPrefixLen s.path (pp.1 ++ [b])) ++ r.2,
          tree := s.tree ++ [⟨b, pp.1 ++ [b], pp.2 + b.work⟩] }, none) := by
  unfold accept
  rw [if_neg h1, if_neg h2, if_neg (ts_ok_not_extreme h3),
    if_neg (ts_ok_not_future h3), h4]
  simp [h5, Nat.not_le.2 h6, h7]

theorem accept_reorg_err {s : CState} {b : Block} {now : Nat}
    {pp : List Block × Nat} {e : VErr}
    (h1 : b.bid ∉ s.dosCache) (h2 : ¬ knownBlock s b.bid)
    (h3 : b.timestamp ≤ now + FutureThreshold)
    (h4 : findParent s b.parent = some pp) (h5 : b.parent ≠ headId s)
    (h6 : depthOf s.path < pp.2 + b.work)
    (h7 : applyMany
        (revertMany s.ledger
          (s.pathDiffs.drop (commonPrefixLen s.path (pp.1 ++ [b]))))
        ((pp.1 ++ [b]).drop (commonPrefixLen s.path (pp.1 ++ [b]))) = .error e) :
    accept s b now =
      ({ s with dosCache := s.dosCache ++ [b.bid] }, some (.invalid e)) := by
  unfold accept
  rw [if_neg h1, if_neg h2, if_neg (ts_ok_not_extreme h3),
    if_neg (ts_ok_not_future h3), h4]
  simp [h5, Nat.not_le.2 h6, h7]

/-! ### Outcome inversions of `accept` -/

/-- A successful `accept` leaves the DoS cache unchanged, indexes the accepted
block, and — when the block extended the head — appends it to the current
path. -/
theorem accept_success_inv {s : CState} {b : Block} {now : Nat} {s' : CState}
    (h : accept s b now = (s', none)) :
    b.bid ∉ s.dosCache ∧ s'.dosCache = s.dosCache ∧
      (∃ pb, s'.tree = s.tree ++ [pb] ∧ pb.blk = b) ∧
      (b.parent = headId s → s'.path = s.path ++ [b]) := by
  unfold accept at h
  by_cases hd : b.bid ∈ s.dosCache
  · rw [if_pos hd] at h
    simp at h
  · rw [if_neg hd] at h
    by_cases hk : knownBlock s b.bid
    · rw [if_pos hk] at h
      simp at h
    · rw [if_neg hk] at h
      by_cases he : now + ExtremeFutureThreshold < b.timestamp
      · rw [if_pos he] at h
        simp at h
      · rw [if_neg he] at h
        by_cases hf : now + FutureThreshold < b.timestamp
        · rw [if_pos hf] at h
          simp at h
        · rw [if_neg hf] at h
          split at h
          · simp at h
          · rename_i pp hpp
            split at h
            · rename_i hh
              split at h
              · simp at h
              · rename_i r hr
                simp only [Prod.mk.injEq] at h
                obtain ⟨hs', -⟩ := h
                subst hs'
                exact ⟨hd, rfl, ⟨⟨b, pp.1 ++ [b], pp.2 + b.work⟩, rfl, rfl⟩,
                  fun _ => rfl⟩
            · rename_i hh
              split at h
              · simp at h
              · split at h
                · simp at h
                · rename_i r hr
                  simp only [Prod.mk.injEq] at h
                  obtain ⟨hs', -⟩ := h
                  subst hs'
                  exact ⟨hd, rfl, ⟨⟨b, pp.1 ++ [b], pp.2 + b.work⟩, rfl, rfl⟩,
                    fun hcon => absurd hcon hh⟩

/-- A semantic rejection caches the submitted block's id and changes nothing
else: the ledger, path and tree are untouched. -/
theorem accept_invalid_inv {s : CState} {b : Block} {now : Nat} {s' : CState}
    {e : VErr} (h : accept s b now = (s', some (.invalid e))) :
    s' = { s with dosCache := s.dosCache ++ [b.bid] } := by
  unfold accept at h
  by_cases hd : b.bid ∈ s.dosCache
  · rw [if_pos hd] at h
    simp at h
  · rw [if_neg hd] at h
    by_cases hk : knownBlock s b.bid
    · rw [if_pos hk] at h
      simp at h
    · rw [if_neg hk] at h
      by_cases he : now + ExtremeFutureThreshold < b.timestamp
      · rw [if_pos he] at h
        simp at h
      · rw [if_neg he] at h
        by_cases hf : now + FutureThreshold < b.timestamp
        · rw [if_pos hf] at h
          simp at h
        · rw [if_neg hf] at h
          split at h
          · simp at h
          · rename_i pp hpp
            split at h
            · split at h
              · simp only [Prod.mk.injEq] at h
                exact h.1.symm
              · simp at h
            · split at h
              · simp at h
              · split at h
                · simp only [Prod.mk.injEq] at h
                  exact h.1.symm
                · simp at h

theorem headId_of_path_concat {s : CState} {X : List Block} {b : Block}
    (h : s.path = X ++ [b]) : headId s = b.bid := by
  unfold headId
  rw [h]
  simp [List.getLast?_concat]

theorem txnsDiffs_cons_intro_err {L : Ledger} {t : Txn} {ts : List Txn}
    {ds1 : List Diff} {e : VErr} (h1 : txnDiffs L t = .ok ds1)
    (h2 : txnsDiffs (applyDiffs L ds1) ts = .error e) :
    txnsDiffs L (t :: ts) = .error e := by
  unfold txnsDiffs
  rw [h1]
  simp [h2]

theorem txnsDiffs_head_err {L : Ledger} {t : Txn} {ts : List Txn} {e : VErr}
    (h1 : txnDiffs L t = .error e) : txnsDiffs L (t :: ts) = .error e := by
  unfold txnsDiffs
  rw [h1]

/-- A single invalid transaction anywhere in the list invalidates the whole
list with its own error, regardless of the valid transactions around it. -/
theorem txnsDiffs_err_append {L : Ledger} {pre suf : List Txn} {bad : Txn}
    {dpre : List Diff} {e : VErr} (hpre : txnsDiffs L pre = .ok dpre)
    (hbad : txnDiffs (applyDiffs L dpre) bad = .error e) :
    txnsDiffs L (pre ++ bad :: suf) = .error e := by
  induction pre generalizing L dpre with
  | nil =>
    simp only [txnsDiffs, Except.ok.injEq] at hpre
    subst hpre
    exact txnsDiffs_head_err hbad
  | cons p pre' ih =>
    obtain ⟨ds1, rest, h1, h2, rfl⟩ := txnsDiffs_cons_ok hpre
    rw [applyDiffs_append] at hbad
    exact txnsDiffs_cons_intro_err h1 (ih h2 hbad)

theorem blockDiffs_err_intro {L : Ledger} {b : Block} {e : VErr}
    (h : txnsDiffs (applyDiffs L (resolutionDiffs L)) b.txns = .error e) :
    blockDiffs L b = .error e := by
  unfold blockDiffs
  rw [h]

theorem applyBlock_err_intro {L : Ledger} {b : Block} {e : VErr}
    (h : blockDiffs L b = .error e) : applyBlock L b = .error e := by
  unfold applyBlock
  rw [h]

/-! ### Claims C4, C5, C6, C7, C8 -/

/-- C4: accepting the same block twice: after a success the resubmission is
rejected with the block-known error, and after a semantic-validation failure
the resubmission is rejected immediately from the DoS cache; in both cases
the second call returns its state unchanged (the ledger in particular). -/
theorem accept_idempotent (s : CState) (b : Block) (now now' : Nat) :
    (∀ s', accept s b now = (s', none) →
      accept s' b now' = (s', some AErr.known))
  ∧ (∀ s' e, accept s b now = (s', some (AErr.invalid e)) →
      accept s' b now' = (s', some AErr.dos) ∧ s'.ledger = s.ledger) := by
  constructor
  · intro s' h
    obtain ⟨hd, hcache, ⟨pb, htree, hblk⟩, -⟩ := accept_success_inv h
    refine accept_known ?_ ?_
    · rw [hcache]
      exact hd
    · refine Or.inr ⟨pb, ?_, ?_⟩
      · rw [htree]
        exact List.mem_append_right _ (List.mem_singleton_self _)
      · rw [hblk]
  · intro s' e h
    have hs' := accept_invalid_inv h
    subst hs'
    refine ⟨accept_dos ?_, rfl⟩
    exact List.mem_append_right _ (List.mem_singleton_self _)

/-- A trivially valid block extending genesis. -/
def wBlockOk : Block := ⟨2, 0, 0, 1, []⟩

/-- A block with a transaction spending a nonexistent output. -/
def wBlockBad : Block := ⟨3, 0, 0, 1, [⟨[99], [], []⟩]⟩

/-- Witness for C4 at concrete blocks on the genesis state. -/
theorem accept_idempotent_witness :
    accept ((accept genesisState wBlockOk 5).1) wBlockOk 9
        = ((accept genesisState wBlockOk 5).1, some AErr.known)
  ∧ accept ((accept genesisState wBlockBad 5).1) wBlockBad 9
        = ((accept genesisState wBlockBad 5).1, some AErr.dos)
  ∧ ((accept genesisState wBlockBad 5).1).ledger = genesisState.ledger := by
  refine ⟨?_, ?_, ?_⟩
  · exact (accept_idempotent genesisState wBlockOk 5 9).1 _ (by decide)
  · exact ((accept_idempotent genesisState wBlockBad 5 9).2 _
      VErr.missingInput (by decide)).1
  · exact ((accept_idempotent genesisState wBlockBad 5 9).2 _
      VErr.missingInput (by decide)).2

/-- C5: a block with valid transactions around one invalid transaction — at
any position — is rejected as a whole with the offending transaction's error,
and none of the valid transactions' effects are applied: ledger and path are
unchanged. -/
theorem buried_bad_txn (s : CState) (b : Block) (now : Nat)
    (pre suf : List Txn) (bad : Txn) (e : VErr) (dpre : List Diff)
    (pp : List Block × Nat)
    (hsplit : b.txns = pre ++ bad :: suf)
    (h1 : b.bid ∉ s.dosCache) (h2 : ¬ knownBlock s b.bid)
    (h3 : b.timestamp ≤ now + FutureThreshold)
    (h4 : findParent s b.parent = some pp) (h5 : b.parent = headId s)
    (hpre : txnsDiffs (applyDiffs s.ledger (resolutionDiffs s.ledger)) pre = .ok dpre)
    (hbad : txnDiffs (applyDiffs (applyDiffs s.ledger (resolutionDiffs s.ledger)) dpre)
      bad = .error e) :
    accept s b now =
      ({ s with dosCache := s.dosCache ++ [b.bid] }, some (AErr.invalid e))
    ∧ ((accept s b now).1).ledger = s.ledger
    ∧ ((accept s b now).1).path = s.path := by
  have htx : txnsDiffs (applyDiffs s.ledger (resolutionDiffs s.ledger)) b.txns
      = .error e := by
    rw [hsplit]
    exact txnsDiffs_err_append hpre hbad
  have hab : applyBlock s.ledger b = .error e :=
    applyBlock_err_intro (blockDiffs_err_intro htx)
  have hacc := accept_extend_err h1 h2 h3 h4 h5 hab
  refine ⟨hacc, ?_, ?_⟩
  · rw [hacc]
  · rw [hacc]

/-- A valid transaction moving the genesis output. -/
def wTxnGood : Txn := ⟨[1], [(5, 1000000000)], []⟩

/-- An invalid transaction spending a nonexistent output. -/
def wTxnBad : Txn := ⟨[99], [], []⟩

/-- A block burying the invalid transaction behind a valid one. -/
def wBlockBuried : Block := ⟨4, 0, 0, 1, [wTxnGood, wTxnBad]⟩

/-- Witness for C5: the buried invalid transaction rejects the whole block on
the genesis state and leaves the ledger untouched. -/
theorem buried_bad_txn_witness :
    accept genesisState wBlockBuried 5 =
      ({ genesisState with
          dosCache := genesisState.dosCache ++ [wBlockBuried.bid] },
        some (AErr.invalid VErr.missingInput))
    ∧ ((accept genesisState wBlockBuried 5).1).ledger = genesisState.ledger
    ∧ ((accept genesisState wBlockBuried 5).1).path = genesisState.path :=
  buried_bad_txn genesisState wBlockBuried 5 [wTxnGood] [] wTxnBad
    VErr.missingInput
    [Diff.outRem 1 1000000000, Diff.outAdd 5 1000000000, Diff.poolInc 0]
    ([], 0) (by decide) (by decide) (by decide) (by decide) (by decide)
    (by decide) (by decide) (by decide)

/-- C6: a block whose parent is not indexed is rejected as an orphan with the
state unchanged and without being cached, so resubmitting it yields the same
orphan rejection; once the parent is accepted, resubmitting the child
succeeds and both blocks are appended to the current path. -/
theorem orphan_recovery (s : CState) (bP bC : Block) (now now1 now2 : Nat) :
    (bC.bid ∉ s.dosCache → ¬ knownBlock s bC.bid →
      bC.timestamp ≤ now + FutureThreshold →
      findParent s bC.parent = none →
      accept s bC now = (s, some AErr.orphan) ∧
        accept ((accept s bC now).1) bC now = (s, some AErr.orphan))
  ∧ (∀ s1 s2, bP.parent = headId s → bC.parent = bP.bid →
      accept s bP now1 = (s1, none) → accept s1 bC now2 = (s2, none) →
      s2.path = s.path ++ [bP, bC]) := by
  constructor
  · intro h1 h2 h3 h4
    have ho := accept_orphan h1 h2 h3 h4
    refine ⟨ho, ?_⟩
    rw [ho]
    exact ho
  · intro s1 s2 hp hc h1 h2
    obtain ⟨-, -, -, hpath1⟩ := accept_success_inv h1
    have hp1 := hpath1 hp
    obtain ⟨-, -, -, hpath2⟩ := accept_success_inv h2
    have hp2 := hpath2 (by rw [hc, headId_of_path_concat hp1])
    rw [hp2, hp1]
    simp

/-- The parent block of the orphan scenario. -/
def wParent : Block := ⟨2, 0, 0, 1, []⟩

/-- The child block submitted before its parent. -/
def wChild : Block := ⟨3, 2, 0, 1, []⟩

/-- Witness for C6: the child alone is an orphan twice; parent then child
both land on the path. -/
theorem orphan_recovery_witness :
    (accept genesisState wChild 5 = (genesisState, some AErr.orphan)
      ∧ accept ((accept genesisState wChild 5).1) wChild 5
          = (genesisState, some AErr.orphan))
    ∧ ((accept ((accept genesisState wParent 5).1) wChild 6).1).path
        = genesisState.path ++ [wParent, wChild] := by
  constructor
  · exact (orphan_recovery genesisState wParent wChild 5 5 6).1
      (by decide) (by decide) (by decide) (by decide)
  · exact (orphan_recovery genesisState wParent wChild 5 5 6).2
      ((accept genesisState wParent 5).1)
      ((accept ((accept genesisState wParent 5).1) wChild 6).1)
      (by decide) (by decide) (by decide) (by decide)

/-- C7: an otherwise-valid block whose timestamp is beyond `FutureThreshold`
but within `ExtremeFutureThreshold` of local time is rejected with the
future-timestamp error and buffered; once local time has passed the
threshold, the background re-check (`tick`) applies the very same block to
the consensus set, without an external resubmission and without modifying the
block. -/
theorem future_timestamp_retry (s : CState) (b : Block) (now1 now2 : Nat)
    (pp : List Block × Nat) (r : Ledger × List Diff)
    (h1 : b.bid ∉ s.dosCache) (h2 : ¬ knownBlock s b.bid)
    (hf1 : now1 + FutureThreshold < b.timestamp)
    (hf2 : b.timestamp ≤ now1 + ExtremeFutureThreshold)
    (hq : s.futureQ = [])
    (hts2 : b.timestamp ≤ now2 + FutureThreshold)
    (h4 : findParent s b.parent = some pp) (h5 : b.parent = headId s)
    (h6 : applyBlock s.ledger b = .ok r) :
    accept s b now1 = ({ s with futureQ := [b] }, some AErr.future)
    ∧ (tick ((accept s b now1).1) now2).path = s.path ++ [b] := by
  have hacc := accept_future h1 h2 (by omega) hf1
  rw [hq] at hacc
  simp only [List.nil_append] at hacc
  refine ⟨hacc, ?_⟩
  rw [hacc]
  show ((accept { s with futureQ := ([] : List Block) } b now2).1).path
    = s.path ++ [b]
  have hs0 : { s with futureQ := ([] : List Block) } = s := by
    cases s
    simp_all
  rw [hs0, accept_extend_ok h1 h2 hts2 h4 h5 h6]

/-- The soft-future block of the retry scenario: two seconds beyond the
future threshold at submission time 0. -/
def wFutureBlock : Block := ⟨2, 0, 10802, 1, []⟩

/-- Witness for C7: rejected at time 0, applied by the re-check at time 5. -/
theorem future_timestamp_retry_witness :
    accept genesisState wFutureBlock 0
      = ({ genesisState with futureQ := [wFutureBlock] }, some AErr.future)
    ∧ (tick ((accept genesisState wFutureBlock 0).1) 5).path
      = genesisState.path ++ [wFutureBlock] :=
  future_timestamp_retry genesisState wFutureBlock 0 5 ([], 0)
    (⟨[(1, 1000000000)], [], 0, 1⟩, [Diff.heightInc])
    (by decide) (by decide) (by decide) (by decide) (by decide) (by decide)
    (by decide) (by decide) (by decide)

/-- The consensus state corrupted the way `TestInconsistentCheck` corrupts
its database: an output injected into the ledger store behind the engine's
back. -/
def corruptState : CState :=
  { genesisState with
      ledger := { genesisLedger with
        outputs := genesisLedger.outputs ++ [(9, 1)] } }

/-- A trivially valid block used to trigger the post-commit check. -/
def cOkBlock : Block := ⟨2, 0, 0, 1, []⟩

/-- Counterexample for C8: on a corrupted store the consistency check does
not report through the normal error-result channel — the acceptance call
panics, as the test `TestInconsistentCheck` demands, so no `done` outcome
(state plus error value) exists. -/
theorem consistency_error_value_counterexample :
    acceptChecked corruptState cOkBlock 5 = AOutcome.panicked
    ∧ ¬ ∃ (s' : CState) (r : Option AErr),
        acceptChecked corruptState cOkBlock 5 = AOutcome.done s' r := by
  have h : acceptChecked corruptState cOkBlock 5 = AOutcome.panicked := by decide
  refine ⟨h, ?_⟩
  rintro ⟨s', r, hc⟩
  rw [h] at hc
  exact AOutcome.noConfusion hc

/-- C8 as amended: when the consistency checker detects a mismatch between
the recomputed state and the tracked state after a successful commit, the
acceptance call panics — unwinding the stack rather than returning a fatal
error value — and in particular no further state is produced for subsequent
block acceptance: acceptance halts. -/
theorem consistency_panic (s : CState) (b : Block) (now : Nat)
    (h : (accept s b now).2 = none)
    (hc : consistent ((accept s b now).1) = false) :
    acceptChecked s b now = AOutcome.panicked
    ∧ ∀ (s' : CState) (r : Option AErr),
        acceptChecked s b now ≠ AOutcome.done s' r := by
  have hp : acceptChecked s b now = AOutcome.panicked := by
    unfold acceptChecked
    simp [h, hc]
  refine ⟨hp, fun s' r hcon => ?_⟩
  rw [hp] at hcon
  exact AOutcome.noConfusion hcon

/-- Witness for the amended C8 on the corrupted store. -/
theorem consistency_panic_witness :
    acceptChecked corruptState cOkBlock 5 = AOutcome.panicked
    ∧ ∀ (s' : CState) (r : Option AErr),
        acceptChecked corruptState cOkBlock 5 ≠ AOutcome.done s' r :=
  consistency_panic corruptState cOkBlock 5 (by decide) (by decide)

/-! ### Chains, canonical states, and chain-index lookups -/

/-- The identities of a list of blocks. -/
def ids (C : List Block) : List Nat := C.map Block.bid

/-- The identity of the last block of a chain segment, genesis by default. -/
def lastId (C : List Block) : Nat := (ids C).getLastD genesisId

/-- A segment of blocks is linked on top of a parent identity. -/
def linked : Nat → List Block → Prop
  | _, [] => True
  | p, b :: t => b.parent = p ∧ linked b.bid t

instance linked.dec (p : Nat) (C : List Block) : Decidable (linked p C) := by
  induction C generalizing p with
  | nil => exact isTrue trivial
  | cons b t ih => exact @instDecidableAnd _ _ (by infer_instance) (ih b.bid)

/-- The output ids a block's transactions create. -/
def createdIds (b : Block) : List Nat :=
  (b.txns.map (fun t => t.outputs.map Prod.fst)).flatten

/-- The tree entries produced by accepting the blocks of `X` in order on top
of the path `P`. -/
def pbEntriesFrom (P : List Block) : List Block → List PBlock
  | [] => []
  | b :: t => ⟨b, P ++ [b], depthOf (P ++ [b])⟩ :: pbEntriesFrom (P ++ [b]) t

/-- The identities indexed by a list of tree entries. -/
def treeIds (T : List PBlock) : List Nat := T.map (fun pb => pb.blk.bid)

/-- A consensus state whose every component is derived from a current path, a
tree and replay data; `accept` maps canonical states to canonical states. -/
def canonState (C : List Block) (T : List PBlock) (L : Ledger)
    (dss : List (List Diff)) : CState :=
  { ledger := L, path := C, pathDiffs := dss, tree := T, dosCache := [],
    futureQ := [] }

/-- Feed a block list at a fixed local time, keeping whatever state each
`accept` leaves. -/
def acceptList (s : CState) (now : Nat) (X : List Block) : CState :=
  X.foldl (fun st b => (accept st b now).1) s

theorem ids_append (X Y : List Block) : ids (X ++ Y) = ids X ++ ids Y := by
  simp [ids]

theorem depthOf_append (X Y : List Block) :
    depthOf (X ++ Y) = depthOf X + depthOf Y := by
  simp [depthOf]

theorem depthOf_snoc (X : List Block) (b : Block) :
    depthOf (X ++ [b]) = depthOf X + b.work := by
  simp [depthOf]

theorem getLastD_append (l1 l2 : List Nat) (d : Nat) :
    (l1 ++ l2).getLastD d = l2.getLastD (l1.getLastD d) := by
  induction l1 generalizing d with
  | nil => rfl
  | cons a t ih =>
    rw [List.cons_append, List.getLastD_cons, List.getLastD_cons, ih]

theorem getLastD_mem {l : List Nat} {d : Nat} (h : l ≠ []) : l.getLastD d ∈ l := by
  induction l generalizing d with
  | nil => exact absurd rfl h
  | cons a t ih =>
    rw [List.getLastD_cons]
    cases t with
    | nil => simp [List.getLastD]
    | cons b u => exact List.mem_cons_of_mem _ (ih (by simp))

theorem lastId_append (X Y : List Block) :
    lastId (X ++ Y) = (ids Y).getLastD (lastId X) := by
  unfold lastId
  rw [ids_append, getLastD_append]

theorem lastId_snoc (X : List Block) (b : Block) : lastId (X ++ [b]) = b.bid := by
  rw [lastId_append]
  rfl

theorem headId_canon (C : List Block) (T : List PBlock) (L : Ledger)
    (dss : List (List Diff)) : headId (canonState C T L dss) = lastId C := rfl

theorem linked_append {p : Nat} {X Y : List Block} (h : linked p (X ++ Y)) :
    linked p X ∧ linked ((ids X).getLastD p) Y := by
  induction X generalizing p with
  | nil => exact ⟨trivial, h⟩
  | cons b t ih =>
    obtain ⟨hb, ht⟩ := h
    obtain ⟨h1, h2⟩ := ih ht
    refine ⟨⟨hb, h1⟩, ?_⟩
    rw [show ids (b :: t) = b.bid :: ids t from rfl, List.getLastD_cons]
    exact h2

theorem linked_parent_head {p : Nat} {X : List Block} {b : Block} {Y : List Block}
    (h : linked p (X ++ b :: Y)) : b.parent = (ids X).getLastD p := by
  obtain ⟨-, h2⟩ := linked_append h
  exact h2.1

theorem pbEntriesFrom_append (P X Y : List Block) :
    pbEntriesFrom P (X ++ Y) = pbEntriesFrom P X ++ pbEntriesFrom (P ++ X) Y := by
  induction X generalizing P with
  | nil => simp [pbEntriesFrom]
  | cons b t ih =>
    rw [List.cons_append]
    simp only [pbEntriesFrom]
    rw [ih (P ++ [b]), List.append_assoc]
    rfl

theorem treeIds_append (T1 T2 : List PBlock) :
    treeIds (T1 ++ T2) = treeIds T1 ++ treeIds T2 := by
  simp [treeIds]

theorem treeIds_pbEntriesFrom (P X : List Block) :
    treeIds (pbEntriesFrom P X) = ids X := by
  induction X generalizing P with
  | nil => rfl
  | cons b t ih =>
    show b.bid :: treeIds (pbEntriesFrom (P ++ [b]) t) = b.bid :: ids t
    rw [ih]

theorem find?_pbEntriesFrom_last {X0 : List Block} {x : Block} (P : List Block)
    (hnd : (ids (X0 ++ [x])).Nodup) :
    (pbEntriesFrom P (X0 ++ [x])).find? (fun pb => pb.blk.bid = x.bid) =
      some ⟨x, P ++ (X0 ++ [x]), depthOf (P ++ (X0 ++ [x]))⟩ := by
  induction X0 generalizing P with
  | nil =>
    rw [show pbEntriesFrom P ([] ++ [x])
        = [⟨x, P ++ [x], depthOf (P ++ [x])⟩] from rfl]
    rw [List.find?_cons_of_pos _ (by simp)]
    rfl
  | cons y t ih =>
    have hy : y.bid ≠ x.bid := by
      have h0 : ids ((y :: t) ++ [x]) = y.bid :: ids (t ++ [x]) := rfl
      rw [h0] at hnd
      have hmem : x.bid ∈ ids (t ++ [x]) := by
        rw [ids_append]
        exact List.mem_append_right _ (by simp [ids])
      intro hEq
      exact (List.nodup_cons.1 hnd).1 (hEq ▸ hmem)
    have hnd' : (ids (t ++ [x])).Nodup := by
      have h0 : ids ((y :: t) ++ [x]) = y.bid :: ids (t ++ [x]) := rfl
      rw [h0] at hnd
      exact (List.nodup_cons.1 hnd).2
    rw [show pbEntriesFrom P ((y :: t) ++ [x])
        = ⟨y, P ++ [y], depthOf (P ++ [y])⟩ :: pbEntriesFrom (P ++ [y]) (t ++ [x])
        from rfl]
    rw [List.find?_cons_of_neg _ (by simp [hy]), ih (P ++ [y]) hnd']
    simp only [List.append_assoc]
    rfl

theorem findParent_canon {C : List Block} {T : List PBlock} {L : Ledger}
    {dss : List (List Diff)} {pid : Nat} {e : PBlock}
    (hpid : pid ≠ genesisId)
    (hfind : T.find? (fun pb => pb.blk.bid = pid) = some e) :
    findParent (canonState C T L dss) pid = some (e.path, e.depth) := by
  unfold findParent
  rw [if_neg hpid]
  show (match T.find? (fun pb => pb.blk.bid = pid) with
    | none => none
    | some pb => some (pb.path, pb.depth)) = some (e.path, e.depth)
  rw [hfind]

theorem find?_append_left_none {T1 T2 : List PBlock} {p : PBlock → Bool}
    (h : ∀ pb ∈ T1, ¬ p pb = true) :
    (T1 ++ T2).find? p = T2.find? p := by
  rw [List.find?_append, List.find?_eq_none.2 h]
  rfl

theorem applyMany_single {L L' : Ledger} {b : Block} {ds : List Diff}
    (h : applyBlock L b = .ok (L', ds)) : applyMany L [b] = .ok (L', [ds]) := by
  unfold applyMany
  rw [h]
  rfl

theorem applyMany_length {L L' : Ledger} {C : List Block}
    {dss : List (List Diff)} (h : applyMany L C = .ok (L', dss)) :
    dss.length = C.length := by
  induction C generalizing L dss with
  | nil =>
    simp only [applyMany, Except.ok.injEq, Prod.mk.injEq] at h
    rw [← h.2]
    rfl
  | cons b t ih =>
    obtain ⟨L1, ds, dss', h1, h2, rfl⟩ := applyMany_cons_ok h
    simp [ih h2]

/-- Extending the head from a canonical state yields the canonical state of
the extended path. -/
theorem accept_canon_extend {C : List Block} {T : List PBlock} {L L' : Ledger}
    {dss : List (List Diff)} {b : Block} {now : Nat} {ds : List Diff}
    (hk : b.bid ≠ genesisId) (hkT : ∀ pb ∈ T, pb.blk.bid ≠ b.bid)
    (hts : b.timestamp ≤ now + FutureThreshold)
    (hfp : findParent (canonState C T L dss) b.parent = some (C, depthOf C))
    (hhead : b.parent = lastId C)
    (hab : applyBlock L b = .ok (L', ds)) :
    accept (canonState C T L dss) b now =
      (canonState (C ++ [b]) (T ++ [⟨b, C ++ [b], depthOf (C ++ [b])⟩]) L'
        (dss ++ [ds]), none) := by
  have h1 : b.bid ∉ (canonState C T L dss).dosCache := by simp [canonState]
  have h2 : ¬ knownBlock (canonState C T L dss) b.bid := by
    unfold knownBlock
    rintro (h | ⟨pb, hm, he⟩)
    · exact hk h
    · exact hkT pb hm he
  rw [accept_extend_ok h1 h2 hts hfp hhead hab]
  simp [canonState, depthOf_snoc]

/-- Indexing a lighter side-fork block from a canonical state only grows the
tree and returns the non-extending error. -/
theorem accept_canon_nonext {C PX : List Block} {T : List PBlock} {L : Ledger}
    {dss : List (List Diff)} {b : Block} {now : Nat}
    (hk : b.bid ≠ genesisId) (hkT : ∀ pb ∈ T, pb.blk.bid ≠ b.bid)
    (hts : b.timestamp ≤ now + FutureThreshold)
    (hfp : findParent (canonState C T L dss) b.parent = some (PX, depthOf PX))
    (hh : b.parent ≠ lastId C)
    (hdep : depthOf (PX ++ [b]) ≤ depthOf C) :
    accept (canonState C T L dss) b now =
      (canonState C (T ++ [⟨b, PX ++ [b], depthOf (PX ++ [b])⟩]) L dss,
        some AErr.nonExtending) := by
  have h1 : b.bid ∉ (canonState C T L dss).dosCache := by simp [canonState]
  have h2 : ¬ knownBlock (canonState C T L dss) b.bid := by
    unfold knownBlock
    rintro (h | ⟨pb, hm, he⟩)
    · exact hk h
    · exact hkT pb hm he
  have hdep' : (PX, depthOf PX).2 + b.work ≤ depthOf (canonState C T L dss).path := by
    show depthOf PX + b.work ≤ depthOf C
    rw [← depthOf_snoc]
    exact hdep
  rw [accept_nonExtending h1 h2 hts hfp hh hdep']
  simp [canonState, depthOf_snoc]

/-- A successful `accept` of a block that extends the current head must have
passed all checks: the parent was indexed, the block applied cleanly, and the
result is the head-extension state. -/
theorem accept_success_extend_inv {s : CState} {b : Block} {now : Nat}
    {s1 : CState} (h : accept s b now = (s1, none)) (hp : b.parent = headId s) :
    ∃ pp r, findParent s b.parent = some pp ∧ applyBlock s.ledger b = .ok r ∧
      s1 = { s with
        ledger := r.1,
        path := s.path ++ [b],
        pathDiffs := s.pathDiffs ++ [r.2],
        tree := s.tree ++ [⟨b, pp.1 ++ [b], pp.2 + b.work⟩] } := by
  unfold accept at h
  by_cases hd : b.bid ∈ s.dosCache
  · rw [if_pos hd] at h
    simp at h
  · rw [if_neg hd] at h
    by_cases hkn : knownBlock s b.bid
    · rw [if_pos hkn] at h
      simp at h
    · rw [if_neg hkn] at h
      by_cases he : now + ExtremeFutureThreshold < b.timestamp
      · rw [if_pos he] at h
        simp at h
      · rw [if_neg he] at h
        by_cases hf : now + FutureThreshold < b.timestamp
        · rw [if_pos hf] at h
          simp at h
        · rw [if_neg hf] at h
          split at h
          · simp at h
          · rename_i pp hpp
            split at h
            · split at h
              · simp at h
              · rename_i r hr
                simp only [Prod.mk.injEq] at h
                exact ⟨pp, r, hpp, hr, h.1.symm⟩
            · rename_i hh
              exact absurd hp hh

theorem acceptChain_cons_inv {s : CState} {now : Nat} {b : Block}
    {t : List Block} {sf : CState}
    (h : acceptChain s now (b :: t) = some sf) :
    ∃ s1, accept s b now = (s1, none) ∧ acceptChain s1 now t = some sf := by
  unfold acceptChain at h
  split at h
  · rename_i heq
    refine ⟨(accept s b now).1, ?_, h⟩
    rw [← heq]
  · simp at h

/-- The seed lookup for a head extension is re-established after every
accepted block: the freshly appended tree entry is found. -/
theorem findParent_after_extend {C : List Block} {T : List PBlock}
    {L : Ledger} {dss : List (List Diff)} {x : Block}
    (hg : x.bid ≠ genesisId) (hkT : ∀ pb ∈ T, pb.blk.bid ≠ x.bid) :
    findParent
      (canonState (C ++ [x]) (T ++ [⟨x, C ++ [x], depthOf (C ++ [x])⟩]) L dss)
      (lastId (C ++ [x])) = some (C ++ [x], depthOf (C ++ [x])) := by
  rw [lastId_snoc]
  refine findParent_canon (e := ⟨x, C ++ [x], depthOf (C ++ [x])⟩) hg ?_
  rw [find?_append_left_none (by
    intro pb hm
    simp only [decide_eq_true_eq]
    exact hkT pb hm)]
  rw [List.find?_cons_of_pos _ (by simp)]

/-- Feeding a linked run of fresh, timely, semantically valid blocks on top
of a canonical state extends the canonical state along the whole run. -/
theorem acceptList_extend_run {now : Nat} (X : List Block) :
    ∀ {C : List Block} {T : List PBlock} {L LX : Ledger}
      {dss dssX : List (List Diff)},
    applyMany L X = .ok (LX, dssX) →
    linked (lastId C) X →
    (∀ x ∈ X, x.bid ≠ genesisId) →
    (∀ x ∈ X, ∀ pb ∈ T, pb.blk.bid ≠ x.bid) →
    (ids X).Nodup →
    (∀ x ∈ X, x.timestamp ≤ now + FutureThreshold) →
    findParent (canonState C T L dss) (lastId C) = some (C, depthOf C) →
    acceptList (canonState C T L dss) now X =
      canonState (C ++ X) (T ++ pbEntriesFrom C X) LX (dss ++ dssX) := by
  induction X with
  | nil =>
    intro C T L LX dss dssX hap _ _ _ _ _ _
    simp only [applyMany, Except.ok.injEq, Prod.mk.injEq] at hap
    obtain ⟨h1, h2⟩ := hap
    subst h1
    subst h2
    simp [acceptList, canonState, pbEntriesFrom]
  | cons x X' ih =>
    intro C T L LX dss dssX hap hlink hg hkT hnd hts hfp
    obtain ⟨L1, ds, dss', h1, h2, rfl⟩ := applyMany_cons_ok hap
    obtain ⟨hpar, hlink'⟩ := hlink
    have hstep := accept_canon_extend (hg x (List.mem_cons_self _ _))
      (fun pb hm => hkT x (List.mem_cons_self _ _) pb hm)
      (hts x (List.mem_cons_self _ _)) (by rw [hpar]; exact hfp) hpar h1
    show acceptList ((accept (canonState C T L dss) x now).1) now X'
      = canonState (C ++ x :: X') (T ++ pbEntriesFrom C (x :: X')) LX
        (dss ++ ds :: dss')
    rw [hstep]
    show acceptList
        (canonState (C ++ [x]) (T ++ [⟨x, C ++ [x], depthOf (C ++ [x])⟩]) L1
          (dss ++ [ds])) now X'
      = canonState (C ++ x :: X') (T ++ pbEntriesFrom C (x :: X')) LX
        (dss ++ ds :: dss')
    have hknd := List.nodup_cons.1 hnd
    rw [ih h2 (by rw [lastId_snoc]; exact hlink')
      (fun y hy => hg y (List.mem_cons_of_mem _ hy))
      (by
        intro y hy pb hm
        rcases List.mem_append.1 hm with hm' | hm'
        · exact hkT y (List.mem_cons_of_mem _ hy) pb hm'
        · have hpb : pb = ⟨x, C ++ [x], depthOf (C ++ [x])⟩ :=
            List.mem_singleton.1 hm'
          rw [hpb]
          intro hEq
          exact hknd.1 (hEq ▸ List.mem_map.2 ⟨y, hy, rfl⟩))
      hknd.2
      (fun y hy => hts y (List.mem_cons_of_mem _ hy))
      (findParent_after_extend (hg x (List.mem_cons_self _ _))
        (fun pb hm => hkT x (List.mem_cons_self _ _) pb hm))]
    simp [canonState, pbEntriesFrom, List.append_assoc]

/-- A fully successful `acceptChain` of a linked, fresh chain from a
canonical state is exactly a replay: the ledger is the `applyMany` result and
the state is canonical on the extended path. -/
theorem acceptChain_canon_aux {now : Nat} (X : List Block) :
    ∀ {C : List Block} {T : List PBlock} {L : Ledger} {dss : List (List Diff)}
      {s : CState},
    linked (lastId C) X →
    (∀ x ∈ X, x.bid ≠ genesisId) →
    (∀ x ∈ X, ∀ pb ∈ T, pb.blk.bid ≠ x.bid) →
    (ids X).Nodup →
    findParent (canonState C T L dss) (lastId C) = some (C, depthOf C) →
    acceptChain (canonState C T L dss) now X = some s →
    ∃ LX dssX, applyMany L X = .ok (LX, dssX) ∧
      s = canonState (C ++ X) (T ++ pbEntriesFrom C X) LX (dss ++ dssX) := by
  induction X with
  | nil =>
    intro C T L dss s _ _ _ _ _ h
    simp only [acceptChain, Option.some.injEq] at h
    refine ⟨L, [], rfl, ?_⟩
    rw [← h]
    simp [canonState, pbEntriesFrom]
  | cons x X' ih =>
    intro C T L dss s hlink hg hkT hnd hfp h
    obtain ⟨s1, hacc, hrest⟩ := acceptChain_cons_inv h
    obtain ⟨hpar, hlink'⟩ := hlink
    obtain ⟨pp, r, hppfind, hab, hs1⟩ :=
      accept_success_extend_inv hacc (by rw [headId_canon]; exact hpar)
    have hppe : pp = (C, depthOf C) := by
      have hcomp := hppfind.symm.trans (by rw [hpar]; exact hfp :
        findParent (canonState C T L dss) x.parent = some (C, depthOf C))
      exact Option.some.inj hcomp
    subst hppe
    have hs1' : s1 = canonState (C ++ [x])
        (T ++ [⟨x, C ++ [x], depthOf (C ++ [x])⟩]) r.1 (dss ++ [r.2]) := by
      rw [hs1]
      simp [canonState, depthOf_snoc]
    rw [hs1'] at hrest
    have hknd := List.nodup_cons.1 hnd
    obtain ⟨LX, dssX, hmany, hfinal⟩ := ih
      (by rw [lastId_snoc]; exact hlink')
      (fun y hy => hg y (List.mem_cons_of_mem _ hy))
      (by
        intro y hy pb hm
        rcases List.mem_append.1 hm with hm' | hm'
        · exact hkT y (List.mem_cons_of_mem _ hy) pb hm'
        · have hpb : pb = ⟨x, C ++ [x], depthOf (C ++ [x])⟩ :=
            List.mem_singleton.1 hm'
          rw [hpb]
          intro hEq
          exact hknd.1 (hEq ▸ List.mem_map.2 ⟨y, hy, rfl⟩))
      hknd.2
      (findParent_after_extend (hg x (List.mem_cons_self _ _))
        (fun pb hm => hkT x (List.mem_cons_self _ _) pb hm))
      hrest
    refine ⟨LX, r.2 :: dssX, ?_, ?_⟩
    · refine applyMany_cons_intro ?_ hmany
      show applyBlock L x = .ok (r.1, r.2)
      rw [Prod.mk.eta]
      exact hab
    · rw [hfinal]
      simp [canonState, pbEntriesFrom, List.append_assoc]

theorem genesisLedger_LInv : LInv genesisLedger := by
  constructor
  · simp [genesisLedger, SortedKeys]
  · simp [genesisLedger, SortedKeys]

theorem nodup_append_ne {l1 l2 : List Nat} (h : (l1 ++ l2).Nodup) {a b : Nat}
    (ha : a ∈ l1) (hb : b ∈ l2) : a ≠ b := by
  rintro rfl
  exact (List.disjoint_of_nodup_append h) ha hb

theorem mem_treeIds {T : List PBlock} {pb : PBlock} (h : pb ∈ T) :
    pb.blk.bid ∈ treeIds T :=
  List.mem_map.2 ⟨pb, h, rfl⟩

theorem lastId_nil : lastId [] = genesisId := rfl

theorem pbEntriesFrom_nil (P : List Block) : pbEntriesFrom P [] = [] := rfl

theorem commonPrefixLen_append (P : List Block) {x y : Block}
    {xs ys : List Block} (h : x ≠ y) :
    commonPrefixLen (P ++ x :: xs) (P ++ y :: ys) = P.length := by
  induction P with
  | nil => simp [commonPrefixLen, h]
  | cons p t ih => simp [commonPrefixLen, ih]

/-- Chain-index lookup of the tip of the side path `P ++ W` in a tree holding
the entries of a main path `P ++ A` and of the fork blocks `W`: the tip's
entry carries the fork path and its depth. -/
theorem findParent_fork {P A W C : List Block} {L : Ledger}
    {dss : List (List Diff)}
    (hnd : (genesisId :: (ids (P ++ A) ++ ids W)).Nodup) :
    findParent
      (canonState C (pbEntriesFrom [] (P ++ A) ++ pbEntriesFrom P W) L dss)
      (lastId (P ++ W)) = some (P ++ W, depthOf (P ++ W)) := by
  have hg : genesisId ∉ ids (P ++ A) ++ ids W := (List.nodup_cons.1 hnd).1
  have hnd2 : (ids (P ++ A) ++ ids W).Nodup := (List.nodup_cons.1 hnd).2
  rcases List.eq_nil_or_concat W with hW | ⟨W0, w, hW⟩
  · subst hW
    simp only [pbEntriesFrom_nil, List.append_nil]
    rcases List.eq_nil_or_concat P with hP | ⟨P0, p, hP⟩
    · subst hP
      rfl
    · rw [List.concat_eq_append] at hP
      subst hP
      have hpmem : p.bid ∈ ids (P0 ++ [p]) := by
        rw [ids_append]
        exact List.mem_append_right _ (by simp [ids])
      have hpmem2 : p.bid ∈ ids ((P0 ++ [p]) ++ A) := by
        rw [ids_append]
        exact List.mem_append_left _ hpmem
      have hpg : p.bid ≠ genesisId := by
        intro hEq
        exact hg (List.mem_append_left _ (hEq ▸ hpmem2))
      rw [lastId_snoc]
      refine findParent_canon (e := ⟨p, P0 ++ [p], depthOf (P0 ++ [p])⟩) hpg ?_
      rw [pbEntriesFrom_append [] (P0 ++ [p]) A, List.find?_append]
      have hndP : (ids (P0 ++ [p])).Nodup := by
        have h1 : (ids ((P0 ++ [p]) ++ A)).Nodup := hnd2.of_append_left
        rw [ids_append] at h1
        exact h1.of_append_left
      rw [find?_pbEntriesFrom_last [] hndP]
      rfl
  · rw [List.concat_eq_append] at hW
    subst hW
    have hwmem : w.bid ∈ ids (W0 ++ [w]) := by
      rw [ids_append]
      exact List.mem_append_right _ (by simp [ids])
    have hwg : w.bid ≠ genesisId := by
      intro hEq
      exact hg (List.mem_append_right _ (hEq ▸ hwmem))
    rw [show P ++ (W0 ++ [w]) = (P ++ W0) ++ [w] from
      (List.append_assoc _ _ _).symm, lastId_snoc]
    refine findParent_canon
      (e := ⟨w, (P ++ W0) ++ [w], depthOf ((P ++ W0) ++ [w])⟩) hwg ?_
    rw [find?_append_left_none (by
      intro pb hm
      simp only [decide_eq_true_eq]
      have hmm := mem_treeIds hm
      rw [treeIds_pbEntriesFrom] at hmm
      exact nodup_append_ne hnd2 hmm hwmem)]
    have hndW : (ids (W0 ++ [w])).Nodup := hnd2.of_append_right
    rw [find?_pbEntriesFrom_last P hndW]
    simp [List.append_assoc]

/-- Feeding the blocks of a heavier competing fork into a canonical state one
at a time: while the fork prefix is not heavier the blocks are merely
indexed; the first prefix that outweighs the current path triggers the
reorganization — revert to the common ancestor by the stored diffs, apply the
fork prefix — and the remaining blocks extend the new head; the final state
is canonical on the fork path with the ledger replayed along it. -/
theorem acceptList_fork_run {now : Nat} (X : List Block) :
    ∀ {P A W : List Block} {L LP LB : Ledger}
      {dss dssP dssB : List (List Diff)},
    applyMany genesisLedger P = .ok (LP, dssP) →
    applyMany genesisLedger (P ++ A) = .ok (L, dssP ++ dss) →
    applyMany LP (W ++ X) = .ok (LB, dssB) →
    linked (lastId P) (W ++ X) →
    (genesisId :: (ids (P ++ A) ++ ids (W ++ X))).Nodup →
    (∀ x ∈ X, x.timestamp ≤ now + FutureThreshold) →
    depthOf (P ++ W) ≤ depthOf (P ++ A) →
    depthOf (P ++ A) < depthOf ((P ++ W) ++ X) →
    A ≠ [] →
    acceptList
      (canonState (P ++ A) (pbEntriesFrom [] (P ++ A) ++ pbEntriesFrom P W) L
        (dssP ++ dss)) now X
      = canonState ((P ++ W) ++ X)
          (pbEntriesFrom [] (P ++ A) ++ pbEntriesFrom P (W ++ X)) LB
          (dssP ++ dssB) := by
  induction X with
  | nil =>
    intro P A W L LP LB dss dssP dssB _ _ _ _ _ _ hle hlt _
    rw [List.append_nil] at hlt
    omega
  | cons x X' ih =>
    intro P A W L LP LB dss dssP dssB hP hPA hWX hlink hnd hts hle hlt hAne
    have hassoc : (W ++ [x]) ++ X' = W ++ (x :: X') := by
      rw [List.append_assoc]
      rfl
    have hnd0 : (ids (P ++ A) ++ ids (W ++ (x :: X'))).Nodup :=
      (List.nodup_cons.1 hnd).2
    have hgmem : genesisId ∉ ids (P ++ A) ++ ids (W ++ (x :: X')) :=
      (List.nodup_cons.1 hnd).1
    have hxmem : x.bid ∈ ids (W ++ (x :: X')) := by
      rw [ids_append]
      exact List.mem_append_right _ (by simp [ids])
    have hxg : x.bid ≠ genesisId := fun hEq =>
      hgmem (List.mem_append_right _ (hEq ▸ hxmem))
    have hndWxX : (ids W ++ ids (x :: X')).Nodup := by
      have h0 : (ids (W ++ (x :: X'))).Nodup := hnd0.of_append_right
      rw [ids_append] at h0
      exact h0
    have hkT : ∀ pb ∈ pbEntriesFrom [] (P ++ A) ++ pbEntriesFrom P W,
        pb.blk.bid ≠ x.bid := by
      intro pb hm
      rcases List.mem_append.1 hm with hm' | hm'
      · have h0 := mem_treeIds hm'
        rw [treeIds_pbEntriesFrom] at h0
        exact nodup_append_ne hnd0 h0 hxmem
      · have h0 := mem_treeIds hm'
        rw [treeIds_pbEntriesFrom] at h0
        exact nodup_append_ne hndWxX h0 (by simp [ids])
    have hpar : x.parent = lastId (P ++ W) := by
      rw [lastId_append]
      exact linked_parent_head hlink
    have hndFork : (genesisId :: (ids (P ++ A) ++ ids W)).Nodup := by
      refine List.Nodup.sublist ?_ hnd
      refine List.cons_sublist_cons.2 (List.Sublist.append_left ?_ _)
      rw [ids_append]
      exact List.sublist_append_left _ _
    have hfp := @findParent_fork P A W (P ++ A) L (dssP ++ dss) hndFork
    have hMemA : lastId (P ++ A) ∈ ids A := by
      rw [lastId_append]
      refine getLastD_mem ?_
      cases A with
      | nil => exact absurd rfl hAne
      | cons a t => simp [ids]
    have hh : x.parent ≠ lastId (P ++ A) := by
      rw [hpar]
      rcases List.eq_nil_or_concat (P ++ W) with hPW | ⟨V, v, hPW⟩
      · rw [hPW, lastId_nil]
        intro hEq
        refine hgmem (List.mem_append_left _ ?_)
        rw [hEq, ids_append]
        exact List.mem_append_right _ hMemA
      · rw [List.concat_eq_append] at hPW
        rw [hPW, lastId_snoc]
        have hvmem : v.bid ∈ ids (P ++ W) := by
          rw [hPW, ids_append]
          exact List.mem_append_right _ (by simp [ids])
        rw [ids_append] at hvmem
        rcases List.mem_append.1 hvmem with hv | hv
        · have hndPA : (ids (P ++ A)).Nodup := hnd0.of_append_left
          rw [ids_append] at hndPA
          exact nodup_append_ne hndPA hv hMemA
        · have hv' : v.bid ∈ ids (W ++ (x :: X')) := by
            rw [ids_append]
            exact List.mem_append_left _ hv
          have hMemPA : lastId (P ++ A) ∈ ids (P ++ A) := by
            rw [ids_append]
            exact List.mem_append_right _ hMemA
          intro hEq
          exact (nodup_append_ne hnd0 hMemPA hv') hEq.symm
    have htree : (pbEntriesFrom [] (P ++ A) ++ pbEntriesFrom P W)
          ++ [⟨x, (P ++ W) ++ [x], depthOf ((P ++ W) ++ [x])⟩]
        = pbEntriesFrom [] (P ++ A) ++ pbEntriesFrom P (W ++ [x]) := by
      rw [pbEntriesFrom_append P W [x], List.append_assoc]
      rfl
    by_cases hdec : depthOf ((P ++ W) ++ [x]) ≤ depthOf (P ++ A)
    · -- the fork is still not heavier: the block is merely indexed
      have hstep := accept_canon_nonext hxg hkT (hts x (List.mem_cons_self _ _))
        (by rw [hpar]; exact hfp) hh hdec
      show acceptList ((accept (canonState (P ++ A)
          (pbEntriesFrom [] (P ++ A) ++ pbEntriesFrom P W) L (dssP ++ dss))
          x now).1) now X' = _
      rw [hstep]
      show acceptList (canonState (P ++ A)
          ((pbEntriesFrom [] (P ++ A) ++ pbEntriesFrom P W)
            ++ [⟨x, (P ++ W) ++ [x], depthOf ((P ++ W) ++ [x])⟩]) L
          (dssP ++ dss)) now X' = _
      rw [htree]
      have hmain := ih hP hPA (by rw [hassoc]; exact hWX)
        (by rw [hassoc]; exact hlink)
        (by rw [hassoc]; exact hnd)
        (fun y hy => hts y (List.mem_cons_of_mem _ hy))
        (by rw [← List.append_assoc]; exact hdec)
        (by
          have hEq : (P ++ (W ++ [x])) ++ X' = (P ++ W) ++ (x :: X') := by
            simp [List.append_assoc]
          rw [hEq]
          exact hlt)
        hAne
      rw [hmain]
      have hEq2 : (P ++ (W ++ [x])) ++ X' = (P ++ W) ++ (x :: X') := by
        simp [List.append_assoc]
      rw [hEq2, hassoc]
    · -- the fork prefix now outweighs the current path: reorganize
      rw [Nat.not_le] at hdec
      obtain ⟨LWx, dssWx, dssX', hWx, hX', hdssB⟩ :=
        applyMany_split (by rw [hassoc]; exact hWX :
          applyMany LP ((W ++ [x]) ++ X') = .ok (LB, dssB))
      obtain ⟨a, A', hA⟩ := List.exists_cons_of_ne_nil hAne
      obtain ⟨w0, ws, hWx0⟩ : ∃ w0 ws, W ++ [x] = w0 :: ws := by
        cases W with
        | nil => exact ⟨x, [], rfl⟩
        | cons ww wt => exact ⟨ww, wt ++ [x], rfl⟩
      have hane : a ≠ w0 := by
        have ha : a.bid ∈ ids (P ++ A) := by
          rw [ids_append]
          refine List.mem_append_right _ ?_
          rw [hA]
          simp [ids]
        have hw0 : w0.bid ∈ ids (W ++ (x :: X')) := by
          have hsub : w0.bid ∈ ids (W ++ [x]) := by
            rw [hWx0]
            simp [ids]
          rw [ids_append] at hsub ⊢
          rcases List.mem_append.1 hsub with hs | hs
          · exact List.mem_append_left _ hs
          · refine List.mem_append_right _ ?_
            simp [ids] at hs
            simp [ids, hs]
        intro hEq
        exact (nodup_append_ne hnd0 ha hw0) (by rw [hEq])
      have hk : commonPrefixLen (P ++ A) ((P ++ W) ++ [x]) = P.length := by
        rw [hA, List.append_assoc, hWx0]
        exact commonPrefixLen_append P hane
      obtain ⟨LP', dssP', dssA, hP', hA', hdssPA⟩ := applyMany_split hPA
      have hcomp := hP.symm.trans hP'
      simp only [Except.ok.injEq, Prod.mk.injEq] at hcomp
      obtain ⟨h9, h8⟩ := hcomp
      subst h9
      subst h8
      have hdssA : dss = dssA := List.append_cancel_left hdssPA
      subst hdssA
      have hlen : dssP.length = P.length := applyMany_length hP
      have hrev : revertMany L
          ((dssP ++ dss).drop (commonPrefixLen (P ++ A) ((P ++ W) ++ [x])))
          = LP := by
        rw [hk, ← hlen, List.drop_left]
        exact revertMany_applyMany (applyMany_LInv genesisLedger_LInv hP) hA'
      have hdrop_cand : ((P ++ W) ++ [x]).drop
          (commonPrefixLen (P ++ A) ((P ++ W) ++ [x])) = W ++ [x] := by
        rw [hk, List.append_assoc]
        exact List.drop_left P (W ++ [x])
      have h7 : applyMany
          (revertMany L
            ((dssP ++ dss).drop (commonPrefixLen (P ++ A) ((P ++ W) ++ [x]))))
          (((P ++ W) ++ [x]).drop
            (commonPrefixLen (P ++ A) ((P ++ W) ++ [x]))) = .ok (LWx, dssWx) := by
        rw [hrev, hdrop_cand]
        exact hWx
      have h1 : x.bid ∉ (canonState (P ++ A)
          (pbEntriesFrom [] (P ++ A) ++ pbEntriesFrom P W) L
          (dssP ++ dss)).dosCache := by
        simp [canonState]
      have h2 : ¬ knownBlock (canonState (P ++ A)
          (pbEntriesFrom [] (P ++ A) ++ pbEntriesFrom P W) L
          (dssP ++ dss)) x.bid := by
        unfold knownBlock
        rintro (hc | ⟨pb, hm, he⟩)
        · exact hxg hc
        · exact hkT pb hm he
      have h6 : depthOf (canonState (P ++ A)
          (pbEntriesFrom [] (P ++ A) ++ pbEntriesFrom P W) L
          (dssP ++ dss)).path < (P ++ W, depthOf (P ++ W)).2 + x.work := by
        show depthOf (P ++ A) < depthOf (P ++ W) + x.work
        rw [← depthOf_snoc]
        exact hdec
      have hstep := accept_reorg_ok h1 h2 (hts x (List.mem_cons_self _ _))
        (by rw [hpar]; exact hfp) hh h6 h7
      show acceptList ((accept (canonState (P ++ A)
          (pbEntriesFrom [] (P ++ A) ++ pbEntriesFrom P W) L (dssP ++ dss))
          x now).1) now X' = _
      rw [hstep]
      have htake : (dssP ++ dss).take
          (commonPrefixLen (P ++ A) ((P ++ W) ++ [x])) = dssP := by
        rw [hk, ← hlen, List.take_left]
      have hstate : ({ canonState (P ++ A)
            (pbEntriesFrom [] (P ++ A) ++ pbEntriesFrom P W) L (dssP ++ dss)
            with
          ledger := (LWx, dssWx).1,
          path := (P ++ W, depthOf (P ++ W)).1 ++ [x],
          pathDiffs :=
            (canonState (P ++ A)
              (pbEntriesFrom [] (P ++ A) ++ pbEntriesFrom P W) L
              (dssP ++ dss)).pathDiffs.take
              (commonPrefixLen (canonState (P ++ A)
                (pbEntriesFrom [] (P ++ A) ++ pbEntriesFrom P W) L
                (dssP ++ dss)).path ((P ++ W, depthOf (P ++ W)).1 ++ [x]))
              ++ (LWx, dssWx).2,
          tree := (canonState (P ++ A)
              (pbEntriesFrom [] (P ++ A) ++ pbEntriesFrom P W) L
              (dssP ++ dss)).tree
            ++ [⟨x, (P ++ W, depthOf (P ++ W)).1 ++ [x],
                  (P ++ W, depthOf (P ++ W)).2 + x.work⟩] } : CState)
          = canonState ((P ++ W) ++ [x])
              (pbEntriesFrom [] (P ++ A) ++ pbEntriesFrom P (W ++ [x])) LWx
              (dssP ++ dssWx) := by
        simp only [canonState]
        rw [show depthOf (P ++ W) + x.work = depthOf ((P ++ W) ++ [x]) from
          (depthOf_snoc (P ++ W) x).symm]
        rw [htree, htake]
      rw [hstate]
      have hlinkX' : linked x.bid X' := by
        obtain ⟨-, h2'⟩ := linked_append (X := W) (Y := x :: X') hlink
        exact h2'.2
      have hseed := @findParent_fork P A (W ++ [x]) ((P ++ W) ++ [x]) LWx
        (dssP ++ dssWx)
        (by
          refine List.Nodup.sublist ?_ hnd
          refine List.cons_sublist_cons.2 (List.Sublist.append_left ?_ _)
          rw [ids_append, ids_append]
          refine List.Sublist.append_left ?_ _
          rw [show ids [x] = [x.bid] from rfl,
            show ids (x :: X') = x.bid :: ids X' from rfl]
          exact List.cons_sublist_cons.2 (List.nil_sublist _))
      have hrun := @acceptList_extend_run now X' ((P ++ W) ++ [x])
        (pbEntriesFrom [] (P ++ A) ++ pbEntriesFrom P (W ++ [x]))
        LWx LB (dssP ++ dssWx) dssX' hX'
        (by rw [lastId_snoc]; exact hlinkX')
        (by
          intro y hy hEq
          refine hgmem (List.mem_append_right _ ?_)
          rw [← hEq, ids_append]
          refine List.mem_append_right _ ?_
          simp only [ids, List.map_cons, List.mem_cons]
          exact Or.inr (List.mem_map.2 ⟨y, hy, rfl⟩))
        (by
          intro y hy pb hm
          rcases List.mem_append.1 hm with hm' | hm'
          · have h0 := mem_treeIds hm'
            rw [treeIds_pbEntriesFrom] at h0
            have hyy : y.bid ∈ ids (W ++ (x :: X')) := by
              rw [ids_append]
              refine List.mem_append_right _ ?_
              simp only [ids, List.map_cons, List.mem_cons]
              exact Or.inr (List.mem_map.2 ⟨y, hy, rfl⟩)
            exact nodup_append_ne hnd0 h0 hyy
          · have h0 := mem_treeIds hm'
            rw [treeIds_pbEntriesFrom, ids_append] at h0
            rcases List.mem_append.1 h0 with h0' | h0'
            · refine nodup_append_ne hndWxX h0' ?_
              simp only [ids, List.map_cons, List.mem_cons]
              exact Or.inr (List.mem_map.2 ⟨y, hy, rfl⟩)
            · simp only [ids, List.map_cons, List.map_nil,
                List.mem_singleton] at h0'
              rw [h0']
              have hndxX : (ids (x :: X')).Nodup := hndWxX.of_append_right
              rw [show ids (x :: X') = x.bid :: ids X' from rfl] at hndxX
              intro hEq
              exact (List.nodup_cons.1 hndxX).1
                (hEq ▸ List.mem_map.2 ⟨y, hy, rfl⟩))
        (by
          have hndxX : (ids (x :: X')).Nodup := hndWxX.of_append_right
          rw [show ids (x :: X') = x.bid :: ids X' from rfl] at hndxX
          exact (List.nodup_cons.1 hndxX).2)
        (fun y hy => hts y (List.mem_cons_of_mem _ hy))
        (by
          rw [show lastId ((P ++ W) ++ [x]) = lastId (P ++ (W ++ [x])) from by
            rw [List.append_assoc]]
          rw [show ((P ++ W) ++ [x]) = (P ++ (W ++ [x])) from by
            rw [List.append_assoc]] at hseed ⊢
          exact hseed)
      rw [hrun, hdssB]
      simp only [List.append_assoc, List.singleton_append]
      rw [← pbEntriesFrom_append, hassoc]

/-- A key live after one diff was live before unless the diff is precisely an
output addition carrying that key. -/
theorem keysS_applyDiff_origin {L : Ledger} {d : Diff} {a : Nat}
    (h : a ∈ keysS (applyDiff L d).outputs) :
    a ∈ keysS L.outputs ∨ ∃ v, d = Diff.outAdd a v := by
  cases d with
  | outAdd k v =>
    simp only [applyDiff] at h
    rcases mem_keysS_insertS.1 h with h' | h'
    · exact Or.inr ⟨v, by rw [h']⟩
    · exact Or.inl h'
  | outRem k v =>
    simp only [applyDiff] at h
    exact Or.inl (keysS_removeS_subset h)
  | conAdd k c => exact Or.inl h
  | conRem k c => exact Or.inl h
  | poolInc n => exact Or.inl h
  | heightInc => exact Or.inl h

/-- A key live after a diff list was live before unless the list holds an
output addition carrying that key. -/
theorem keysS_applyDiffs_origin {ds : List Diff} :
    ∀ {L : Ledger} {a : Nat}, a ∈ keysS (applyDiffs L ds).outputs →
    a ∈ keysS L.outputs ∨ ∃ v, Diff.outAdd a v ∈ ds := by
  induction ds with
  | nil =>
    intro L a h
    exact Or.inl h
  | cons d t ih =>
    intro L a h
    rw [applyDiffs_cons] at h
    rcases ih h with h' | ⟨v, hv⟩
    · rcases keysS_applyDiff_origin h' with h2 | ⟨v, hv⟩
      · exact Or.inl h2
      · exact Or.inr ⟨v, by rw [hv]; exact List.mem_cons_self _ _⟩
    · exact Or.inr ⟨v, List.mem_cons_of_mem _ hv⟩

/-- The only output additions a valid transaction emits carry the keys of its
declared created outputs. -/
theorem txnOkDiffs_outAdd {L : Ledger} {t : Txn} {ivs : List (Nat × Nat)}
    {a v : Nat} (h : Diff.outAdd a v ∈ txnOkDiffs L t ivs) :
    a ∈ t.outputs.map Prod.fst := by
  unfold txnOkDiffs at h
  rcases List.mem_append.1 h with h1 | h1
  · rcases List.mem_append.1 h1 with h2 | h2
    · rcases List.mem_append.1 h2 with h3 | h3
      · obtain ⟨p, -, hEq⟩ := List.mem_map.1 h3
        simp at hEq
      · obtain ⟨p, hp, hEq⟩ := List.mem_map.1 h3
        simp only [Diff.outAdd.injEq] at hEq
        exact List.mem_map.2 ⟨p, hp, hEq.1⟩
    · obtain ⟨p, -, hEq⟩ := List.mem_map.1 h2
      simp at hEq
  · simp at h1

theorem txnDiffs_outAdd_origin {L : Ledger} {t : Txn} {ds : List Diff}
    {a v : Nat} (h : txnDiffs L t = .ok ds) (hm : Diff.outAdd a v ∈ ds) :
    a ∈ t.outputs.map Prod.fst := by
  obtain ⟨ivs, -, -, -, -, -, rfl⟩ := txnDiffs_ok_inv h
  exact txnOkDiffs_outAdd hm

theorem txnsDiffs_outAdd_origin {ts : List Txn} :
    ∀ {L : Ledger} {ds : List Diff} {a v : Nat},
    txnsDiffs L ts = .ok ds → Diff.outAdd a v ∈ ds →
    ∃ t ∈ ts, a ∈ t.outputs.map Prod.fst := by
  induction ts with
  | nil =>
    intro L ds a v h hm
    simp only [txnsDiffs, Except.ok.injEq] at h
    subst h
    simp at hm
  | cons t ts' ih =>
    intro L ds a v h hm
    obtain ⟨ds1, rest, h1, h2, rfl⟩ := txnsDiffs_cons_ok h
    rcases List.mem_append.1 hm with hm' | hm'
    · exact ⟨t, List.mem_cons_self _ _, txnDiffs_outAdd_origin h1 hm'⟩
    · obtain ⟨t', ht', ha⟩ := ih h2 hm'
      exact ⟨t', List.mem_cons_of_mem _ ht', ha⟩

/-- Contract resolution emits no output additions. -/
theorem resolutionDiffs_no_outAdd {L : Ledger} {a v : Nat}
    (h : Diff.outAdd a v ∈ resolutionDiffs L) : False := by
  unfold resolutionDiffs at h
  rcases List.mem_cons.1 h with h' | h'
  · simp at h'
  · obtain ⟨p, -, hEq⟩ := List.mem_map.1 h'
    simp at hEq

theorem blockDiffs_outAdd_origin {L : Ledger} {b : Block} {ds : List Diff}
    {a v : Nat} (h : blockDiffs L b = .ok ds) (hm : Diff.outAdd a v ∈ ds) :
    a ∈ createdIds b := by
  obtain ⟨rest, h1, rfl⟩ := blockDiffs_ok_inv h
  rcases List.mem_append.1 hm with hm' | hm'
  · exact absurd hm' resolutionDiffs_no_outAdd
  · obtain ⟨t, ht, ha⟩ := txnsDiffs_outAdd_origin h1 hm'
    unfold createdIds
    exact List.mem_flatten.2 ⟨t.outputs.map Prod.fst,
      List.mem_map.2 ⟨t, ht, rfl⟩, ha⟩

/-- A key live after a block was live before it unless the block's
transactions created it. -/
theorem applyBlock_output_origin {L L' : Ledger} {b : Block} {ds : List Diff}
    (h : applyBlock L b = .ok (L', ds)) {a : Nat}
    (ha : a ∈ keysS L'.outputs) :
    a ∈ keysS L.outputs ∨ a ∈ createdIds b := by
  obtain ⟨hbd, hL⟩ := applyBlock_ok h
  rw [hL] at ha
  rcases keysS_applyDiffs_origin ha with h' | ⟨v, hv⟩
  · exact Or.inl h'
  · exact Or.inr (blockDiffs_outAdd_origin hbd hv)

/-- A key live after replaying a chain was live at its start unless some
block of the chain created it. -/
theorem applyMany_output_origin {bs : List Block} :
    ∀ {L L' : Ledger} {dss : List (List Diff)},
    applyMany L bs = .ok (L', dss) → ∀ {a : Nat}, a ∈ keysS L'.outputs →
    a ∈ keysS L.outputs ∨ ∃ b ∈ bs, a ∈ createdIds b := by
  induction bs with
  | nil =>
    intro L L' dss h a ha
    simp only [applyMany, Except.ok.injEq, Prod.mk.injEq] at h
    rw [← h.1] at ha
    exact Or.inl ha
  | cons b t ih =>
    intro L L' dss h a ha
    obtain ⟨L1, ds, dss', h1, h2, rfl⟩ := applyMany_cons_ok h
    rcases ih h2 ha with h' | ⟨b', hb', ha'⟩
    · rcases applyBlock_output_origin h1 h' with h2' | h2'
      · exact Or.inl h2'
      · exact Or.inr ⟨b, List.mem_cons_self _ _, h2'⟩
    · exact Or.inr ⟨b', List.mem_cons_of_mem _ hb', ha'⟩

/-- C2: after a chain `P ++ A` has been accepted from genesis, feeding the
blocks of a strictly heavier competing chain `P ++ B` reorganizes onto it:
the final path is `P ++ B`, the final ledger is exactly the `applyMany`
replay of `P ++ B` from the genesis ledger, and an output created only by
blocks unique to `A` is no longer live. -/
theorem reorg_refinement {now : Nat} {P A B : List Block} {sA : CState}
    {LB : Ledger} {dssB : List (List Diff)} {oid : Nat}
    (hacc : acceptChain genesisState now (P ++ A) = some sA)
    (hlinkA : linked genesisId (P ++ A))
    (hlinkB : linked genesisId (P ++ B))
    (hnd : (genesisId :: (ids (P ++ A) ++ ids B)).Nodup)
    (hts : ∀ b ∈ B, b.timestamp ≤ now + FutureThreshold)
    (happB : applyMany genesisLedger (P ++ B) = .ok (LB, dssB))
    (hdepth : depthOf (P ++ A) < depthOf (P ++ B))
    (hAne : A ≠ [])
    (hcreA : ∃ a ∈ A, oid ∈ createdIds a)
    (hnotB : ∀ b ∈ P ++ B, oid ∉ createdIds b)
    (hnotG : oid ∉ keysS genesisLedger.outputs) :
    (acceptList sA now B).path = P ++ B ∧
    (acceptList sA now B).ledger = LB ∧
    lookupS oid (acceptList sA now B).ledger.outputs = none := by
  have hgnotin : genesisId ∉ ids (P ++ A) ++ ids B := (List.nodup_cons.1 hnd).1
  have hnd0 : (ids (P ++ A) ++ ids B).Nodup := (List.nodup_cons.1 hnd).2
  obtain ⟨LA, dssA, happA, hsA⟩ := @acceptChain_canon_aux now (P ++ A)
    [] [] genesisLedger [] sA
    hlinkA
    (fun x hx hEq =>
      hgnotin (List.mem_append_left _ (hEq ▸ List.mem_map.2 ⟨x, hx, rfl⟩)))
    (fun x _ pb hm => absurd hm (List.not_mem_nil pb))
    hnd0.of_append_left
    rfl
    hacc
  rw [List.nil_append, List.nil_append, List.nil_append] at hsA
  obtain ⟨LP, dssP, dssA2, hP, hA2, hdssA⟩ := applyMany_split happA
  obtain ⟨LP2, dssP2, dssB2, hP2, hB2, hdssB⟩ := applyMany_split happB
  have hcomp := hP.symm.trans hP2
  simp only [Except.ok.injEq, Prod.mk.injEq] at hcomp
  obtain ⟨h9, h8⟩ := hcomp
  subst h9
  subst h8
  have hrun := @acceptList_fork_run now B P A [] LA LP LB dssA2 dssP dssB2
    hP
    (by rw [← hdssA]; exact happA)
    (by rw [List.nil_append]; exact hB2)
    (by
      rw [List.nil_append]
      exact (linked_append hlinkB).2)
    (by rw [List.nil_append]; exact hnd)
    hts
    (by
      rw [List.append_nil, depthOf_append]
      exact Nat.le_add_right _ _)
    (by rw [List.append_nil]; exact hdepth)
    hAne
  have hsA' : sA = canonState (P ++ A)
      (pbEntriesFrom [] (P ++ A) ++ pbEntriesFrom P []) LA (dssP ++ dssA2) := by
    rw [hsA, hdssA, pbEntriesFrom_nil, List.append_nil]
  rw [hsA', hrun, List.append_nil]
  refine ⟨rfl, rfl, ?_⟩
  show lookupS oid LB.outputs = none
  rw [lookupS_eq_none]
  intro hmem
  rcases applyMany_output_origin happB hmem with h' | ⟨b, hb, hb'⟩
  · exact hnotG h'
  · exact hnotB b hb hb'

def w2P : List Block := [⟨2, 0, 0, 1, []⟩]

def w2A : List Block := [⟨3, 2, 0, 1, [⟨[1], [(7, 1000000000)], []⟩]⟩]

def w2B : List Block := [⟨4, 2, 0, 1, []⟩, ⟨5, 4, 0, 1, []⟩]

def w2sA : CState := (acceptChain genesisState 0 (w2P ++ w2A)).getD genesisState

def w2LB : Ledger :=
  { outputs := [(1, 1000000000)], contracts := [], pool := 0, height := 3 }

def w2dssB : List (List Diff) :=
  [[Diff.heightInc], [Diff.heightInc], [Diff.heightInc]]

theorem reorg_refinement_witness :
    acceptChain genesisState 0 (w2P ++ w2A) = some w2sA ∧
    applyMany genesisLedger (w2P ++ w2B) = .ok (w2LB, w2dssB) ∧
    depthOf (w2P ++ w2A) < depthOf (w2P ++ w2B) ∧
    ((acceptList w2sA 0 w2B).path = w2P ++ w2B ∧
     (acceptList w2sA 0 w2B).ledger = w2LB ∧
     lookupS 7 (acceptList w2sA 0 w2B).ledger.outputs = none) :=
  ⟨by decide, by decide, by decide,
   @reorg_refinement 0 w2P w2A w2B w2sA w2LB w2dssB 7 (by decide) (by decide)
     (by decide) (by decide) (by decide) (by decide) (by decide) (by decide)
     (by decide) (by decide) (by decide)⟩

/-- C3: consensus processing is a pure function of the submission sequence —
two instances that accept the identical sequence of (block, local time)
submissions starting from genesis end in byte-identical states, and in
particular agree on the live-output total, the contract set and the
fund-tax-pool value. -/
theorem accept_deterministic (subs : List (Block × Nat)) (s1 s2 : CState)
    (h1 : s1 = acceptSeq genesisState subs)
    (h2 : s2 = acceptSeq genesisState subs) :
    s1 = s2 ∧ outputTotal s1 = outputTotal s2 ∧
      s1.ledger.contracts = s2.ledger.contracts ∧
      s1.ledger.pool = s2.ledger.pool := by
  subst h1
  subst h2
  exact ⟨rfl, rfl, rfl, rfl⟩

def w3Subs : List (Block × Nat) :=
  [(⟨2, 0, 0, 1, []⟩, 0), (⟨3, 2, 0, 1, []⟩, 5), (⟨3, 2, 0, 1, []⟩, 6)]

theorem accept_deterministic_witness :
    acceptSeq genesisState w3Subs = acceptSeq genesisState w3Subs ∧
      outputTotal (acceptSeq genesisState w3Subs) =
        outputTotal (acceptSeq genesisState w3Subs) ∧
      (acceptSeq genesisState w3Subs).ledger.contracts =
        (acceptSeq genesisState w3Subs).ledger.contracts ∧
      (acceptSeq genesisState w3Subs).ledger.pool =
        (acceptSeq genesisState w3Subs).ledger.pool :=
  accept_deterministic w3Subs _ _ rfl rfl

/-- The transaction that creates the hardfork test's file contract: it spends
the genesis output, keeps 600,000,000 as change and locks a 400,000,000
payout into a contract whose proof window ends at height 12. -/
def c1ConTxn : Txn := ⟨[1], [(5, 600000000)], [(77, ⟨400000000, 12⟩)]⟩

/-- The eleven-block prefix: the contract is created at height 1 — before the
hard fork at height 10 — and the chain is then mined past the fork up to
height 11, one short of the proof-window end. -/
def c1Pre : List Block :=
  [⟨2, 0, 0, 1, [c1ConTxn]⟩, ⟨3, 2, 0, 1, []⟩, ⟨4, 3, 0, 1, []⟩,
   ⟨5, 4, 0, 1, []⟩, ⟨6, 5, 0, 1, []⟩, ⟨7, 6, 0, 1, []⟩, ⟨8, 7, 0, 1, []⟩,
   ⟨9, 8, 0, 1, []⟩, ⟨10, 9, 0, 1, []⟩, ⟨11, 10, 0, 1, []⟩,
   ⟨12, 11, 0, 1, []⟩]

/-- The resolving block: it advances the chain to height 12, where the
contract's proof window ends and the contract leaves the live set. -/
def c1Res : Block := ⟨13, 12, 0, 1, []⟩

def c1SCreate : CState :=
  (acceptChain genesisState 0 [⟨2, 0, 0, 1, [c1ConTxn]⟩]).getD genesisState

def c1SPre : CState := (acceptChain genesisState 0 c1Pre).getD genesisState

def c1SPost : CState :=
  (acceptChain genesisState 0 (c1Pre ++ [c1Res])).getD genesisState

/-- C1 counterexample: the whole chain is accepted, the contract is live at
height 11 and resolved by the height-12 block, yet the pool already holds
15,590,000 before the resolving block is accepted and the resolving block
leaves it unchanged — accepting the resolving block does not increase the
pool by the legacy-formula amount (or at all). -/
theorem tax_hardfork_counterexample :
    acceptChain genesisState 0 (c1Pre ++ [c1Res]) = some c1SPost ∧
      c1SPre.ledger.contracts = [(77, ⟨400000000, 12, 1⟩)] ∧
      c1SPre.ledger.height = 11 ∧ taxHardforkHeight = 10 ∧
      c1SPost.ledger.contracts = [] ∧ c1SPost.ledger.height = 12 ∧
      c1SPre.ledger.pool = 15590000 ∧
      c1SPost.ledger.pool = 15590000 ∧
      ¬ c1SPost.ledger.pool = c1SPre.ledger.pool + legacyTax 400000000 := by
  decide

/-- C1 (amended): the fund-tax pool grows when the contract is created, not
when it is resolved.  Creating the 400,000,000-payout contract at height 1 —
before the hard fork — charges the legacy float-derived tax, so the pool
holds exactly 15,590,000 from the creation block onward; resolving the
contract after the fork (height 12) leaves the pool unchanged at 15,590,000,
which is not the 15,600,000 the corrected post-fork formula would give. -/
theorem tax_hardfork_legacy_pool :
    acceptChain genesisState 0 (c1Pre ++ [c1Res]) = some c1SPost ∧
      c1SCreate.ledger.pool = legacyTax 400000000 ∧
      legacyTax 400000000 = 15590000 ∧
      c1SPost.ledger.contracts = [] ∧
      c1SPost.ledger.pool = 15590000 ∧
      postTax 400000000 = 15600000 ∧
      ¬ c1SPost.ledger.pool = postTax 400000000 := by
  decide

end SiaConsensus
